import Mathlib

/-!
# GOST R 34.10 public keys: decoding, encoding, verification and recovery

A shallow embedding of `gost3410/public.go`.

* `*big.Int` values are `Int`; `[]byte` is `List Byte` with `Byte = Fin 256`.
* A Go call that can panic at run time returns an `Option`: `none` is the
  panic, `some v` is a normal return of `v`.
* A Go `error` is `Option String`: `none` is `nil`, `some msg` is an error.
* A Go pointer result that may be `nil` is an `Option`.
* The methods of `Curve` that `public.go` calls (`PointSize`, `Exp`, `Add`)
  live in another file of the package; they are fields of `Curve`, so every
  theorem holds for every implementation of them.  `math/big`'s `ModSqrt`
  is a parameter of `Ecrecover` for the same reason.
-/

namespace Gost3410

/-! ## Bytes and big integers -/

/-- One Go `byte`. -/
abbrev Byte := Fin 256

/-- Modelled from the spec: `bytes2big` is missing from the sources; the spec
reads coordinates and signature halves "as a big-endian integer"
(`big.Int.SetBytes`). -/
def bytes2big (d : List Byte) : Int :=
  d.foldl (fun acc b => acc * 256 + (b.val : Int)) 0

/-- Little-endian base-256 digits of `n`, least significant first, without
trailing zero digits; `fuel` bounds the number of digits. -/
def bytesLE : Nat → Nat → List Byte
  | 0, _ => []
  | fuel + 1, n => if n = 0 then [] else Fin.ofNat (n % 256) :: bytesLE fuel (n / 256)

/-- The method `Bytes` of `big.Int`: the big-endian bytes of the absolute
value, without leading zero bytes (empty for 0). -/
def bigBytes (x : Int) : List Byte :=
  (bytesLE x.natAbs x.natAbs).reverse

/-- Modelled from the spec: `pad` is missing from the sources; the spec says
"left-pad ... to `PointSize`": zero bytes are put in front until the slice has
`size` bytes. -/
def pad (d : List Byte) (size : Nat) : List Byte :=
  List.replicate (size - d.length) 0 ++ d

/-- Modelled from the spec: `reverse` is missing from the sources; the spec
says "reverse the whole buffer". -/
def reverse (d : List Byte) : List Byte :=
  d.reverse

/-- The method `Mod` of `big.Int`: Euclidean modulus, a run-time panic when
the modulus is zero. -/
def bigMod (x y : Int) : Option Int :=
  if y = 0 then none else some (x % y)

/-- Extended Euclid on naturals, tracking the cofactor of the first
argument: from `(r, s)` and `(r2, s2)` it returns the last non-zero
remainder and its cofactor.  `fuel` bounds the number of division steps. -/
def xgcdAux : Nat → Nat → Int → Nat → Int → Nat × Int
  | 0, _, _, r2, s2 => (r2, s2)
  | fuel + 1, r, s, r2, s2 =>
    if r = 0 then (r2, s2)
    else xgcdAux fuel (r2 % r) (s2 - ((r2 / r : Nat) : Int) * s) r s

/-- The call `z.ModInverse(g, n)` of `big.Int`, seen through its receiver
(`public.go` never looks at the returned pointer): the new value of `z`.
When `g` and `n` are coprime it is the inverse of `g` in the range
`0 ≤ z < |n|`; when `g` has no inverse modulo `n` the method returns `nil` and
the receiver keeps its old value `z`.  A negative `g` is first reduced with
`Mod`, which panics for `n = 0`. -/
def bigModInverse (z g n : Int) : Option Int :=
  let m : Nat := n.natAbs
  if g < 0 ∧ m = 0 then none
  else
    let a : Nat := (if g < 0 then g % (m : Int) else g).toNat
    let dx := xgcdAux a a 1 m 0
    if dx.1 = 1 then some (dx.2 % (m : Int))
    else some z

/-! ## Curves and public keys -/

/-- The type `Curve` of the package, as far as `public.go` uses it: the
parameters `P`, `Q`, `A`, `B`, the base point `(X, Y)`, and the methods
`PointSize`, `Exp` and `Add`. -/
structure Curve where
  P : Int
  Q : Int
  A : Int
  B : Int
  X : Int
  Y : Int
  PointSize : Nat
  Exp : Int → Int → Int → Except String (Int × Int)
  Add : Int → Int → Int → Int → Int × Int

/-- The type `PublicKey`. -/
structure PublicKey where
  C : Curve
  X : Int
  Y : Int

/-- The function `NewPublicKey`: the pair `(key, err)` it returns. -/
def NewPublicKey (c : Curve) (raw : List Byte) : Option PublicKey × Option String :=
  let pointSize := c.PointSize
  if raw.length ≠ 2 * pointSize then
    (none, some ("gogost/gost3410: len(key) != " ++ toString (2 * pointSize)))
  else
    let key := raw.reverse
    (some ⟨c, bytes2big ((key.drop pointSize).take pointSize), bytes2big (key.take pointSize)⟩,
      none)

/-- The method `Raw`. -/
def PublicKey.Raw (pub : PublicKey) : List Byte :=
  let pointSize := pub.C.PointSize
  reverse (pad (bigBytes pub.Y) pointSize ++ pad (bigBytes pub.X) pointSize)

/-- The tail of `VerifyDigest` after both scalar multiplications: the inlined
chord addition of `(p1x, p1y)` and `(q1x, q1y)` and the comparison with `r`. -/
def verifyTail (P Q r p1x p1y q1x q1y : Int) : Option (Bool × Option String) :=
  let lm := q1x - p1x
  let lm := if lm < 0 then lm + P else lm
  (bigModInverse lm lm P).bind fun lm =>
  let z1 := q1y - p1y
  (bigMod (lm * z1) P).bind fun lm =>
  (bigMod (lm * lm) P).bind fun lm =>
  let lm := lm - p1x
  let lm := lm - q1x
  (bigMod lm P).bind fun lm =>
  let lm := if lm < 0 then lm + P else lm
  (bigMod lm Q).bind fun lm =>
  some (decide (lm = r), none)

/-- The method `VerifyDigest`: `none` is a panic, `some (b, err)` the
returned pair. -/
def PublicKey.VerifyDigest (pub : PublicKey) (digest signature : List Byte) :
    Option (Bool × Option String) :=
  let pointSize := pub.C.PointSize
  if signature.length ≠ 2 * pointSize then
    some (false, some ("gogost/gost3410: len(signature) != " ++ toString (2 * pointSize)))
  else
    let s := bytes2big (signature.take pointSize)
    let r := bytes2big (signature.drop pointSize)
    if r ≤ 0 ∨ r ≥ pub.C.Q ∨ s ≤ 0 ∨ s ≥ pub.C.Q then some (false, none)
    else
      (bigMod (bytes2big digest) pub.C.Q).bind fun e =>
      let e := if e = 0 then 1 else e
      (bigModInverse 0 e pub.C.Q).bind fun v =>
      (bigMod (s * v) pub.C.Q).bind fun z1 =>
      (bigMod (r * v) pub.C.Q).bind fun z2 =>
      let z2 := pub.C.Q - z2
      match pub.C.Exp z1 pub.C.X pub.C.Y with
      | .error err => some (false, some err)
      | .ok (p1x, p1y) =>
        match pub.C.Exp z2 pub.X pub.Y with
        | .error err => some (false, some err)
        | .ok (q1x, q1y) => verifyTail pub.C.P pub.C.Q r p1x p1y q1x q1y

/-- The part of `Ecrecover` after the square root `y0` was found non-zero:
both candidates and the comparison with the known key. -/
def recoverTail (pub : PublicKey) (r s z y0 : Int) :
    Option (Option Int × Option Int × Option String) :=
  let y1 := pub.C.P - y0
  let Rx := r
  let Ry := y0
  (bigModInverse 0 r pub.C.Q).bind fun w =>
  (bigMod (s * w) pub.C.Q).bind fun u1 =>
  (bigMod (-(z * w)) pub.C.Q).bind fun u2 =>
  match pub.C.Exp u1 pub.C.X pub.C.Y with
  | .error _ => some (none, none, some "error at computing u1Gx, u1Gy")
  | .ok (u1Gx, u1Gy) =>
    match pub.C.Exp u2 Rx Ry with
    | .error _ => some (none, none, some "error at computing u2Rx, u2Ry")
    | .ok (u2Rx, u2Ry) =>
      let Qa := pub.C.Add u1Gx u1Gy u2Rx u2Ry
      if Qa.1 = pub.X ∧ Qa.2 = pub.Y then some (some Qa.1, some Qa.2, none)
      else
        match pub.C.Exp Rx y1 u2 with
        | .error _ => some (none, none, some "error at computing u2Rx_, u2Ry_")
        | .ok (u2Rx_, u2Ry_) =>
          let Qb := pub.C.Add u1Gx u1Gy u2Rx_ u2Ry_
          if Qb.1 = pub.X ∧ Qb.2 = pub.Y then some (some Qb.1, some Qb.2, none)
          else some (none, none, some "cant recover public key")

/-- The method `Ecrecover`: `none` is a panic, `some (x, y, err)` the
returned triple.  `ModSqrt x p` is `new(big.Int).ModSqrt(x, p)` of
`math/big`, whose result is the `nil` pointer (`none`) when `x` is not a
square modulo `p`; calling `Cmp` on that `nil` pointer panics.  (`ModSqrt`
is total here: its own panic on a modulus that is not an odd prime is not
modelled.) -/
def PublicKey.Ecrecover (ModSqrt : Int → Int → Option Int) (pub : PublicKey)
    (digest signature : List Byte) : Option (Option Int × Option Int × Option String) :=
  let pointSize := pub.C.PointSize
  if signature.length ≠ 2 * pointSize then
    some (none, none, some ("gogost/gost3410: len(signature) != " ++ toString (2 * pointSize)))
  else
    let r := bytes2big (signature.drop pointSize)
    let s := bytes2big (signature.take pointSize)
    if r ≤ 0 ∨ r ≥ pub.C.Q ∨ s ≤ 0 ∨ s ≥ pub.C.Q then
      some (none, none, some "error at r")
    else
      (bigMod (bytes2big digest) pub.C.Q).bind fun z =>
      let z := if z = 0 then 1 else z
      let x3 := r * r
      let x3 := x3 * r
      let aX := pub.C.A * r
      let x3 := x3 + aX
      let x3 := x3 + pub.C.B
      (bigMod x3 pub.C.P).bind fun x3 =>
      match ModSqrt x3 pub.C.P with
      | none => none
      | some y0 =>
        if y0 = 0 then some (none, none, some "error at computing y0")
        else recoverTail pub r s z y0

/-! ## A small curve for concrete runs

`Curve.Add` and `Curve.Exp` are not part of `public.go`.  For runs on
concrete inputs they are instantiated with the textbook affine formulas the
spec describes, on the curve `y² = x³ + x + 6` over the field of 11
elements, whose 13 points form a group of prime order. -/

/-- Inverse of `g` modulo `n` (0 when there is none). -/
def invMod (g n : Int) : Int :=
  (bigModInverse 0 (g % n) n).getD 0

/-- Modelled from the spec: `Curve.Add` is missing from the sources; the spec
says "affine point addition/doubling using the standard short-Weierstrass
formulas over the field `mod P`.  Slope computed via modular inverse of the
x-difference (or, for doubling, the tangent formula)". -/
def specAdd (P A x1 y1 x2 y2 : Int) : Int × Int :=
  let t :=
    if x1 = x2 ∧ y1 = y2 then (3 * x1 * x1 + A) * invMod (2 * y1) P % P
    else (y2 - y1) * invMod (x2 - x1) P % P
  let x3 := (t * t - x1 - x2) % P
  let y3 := (t * (x1 - x3) - y1) % P
  (x3, y3)

/-- The double-and-add loop of `specExp`: `dg` is the part of the scalar still
to be processed, `t` the accumulated point and `c` the current power-of-two
multiple of the input point. -/
def specExpLoop (P A : Int) : Nat → Nat → Int × Int → Int × Int → Int × Int
  | 0, _, t, _ => t
  | fuel + 1, dg, t, c =>
    if dg = 0 then t
    else
      specExpLoop P A fuel (dg / 2)
        (if dg % 2 = 1 then specAdd P A t.1 t.2 c.1 c.2 else t)
        (specAdd P A c.1 c.2 c.1 c.2)

/-- Modelled from the spec: `Curve.Exp` is missing from the sources; the spec
says "scalar multiplication of point `(x,y)` by `scalar`, using a binary
(double-and-add) method over `Add`" and "a scalar of zero ... must surface a
typed failure". -/
def specExp (P A : Int) (k x y : Int) : Except String (Int × Int) :=
  if k = 0 then .error "zero scalar"
  else .ok (specExpLoop P A k.natAbs (k.natAbs - 1) (x, y) (x, y))

/-- The curve `y² = x³ + x + 6` over the integers modulo 11, base point
`(2, 7)` of prime order 13, coordinates on 32 bytes. -/
def toyCurve : Curve where
  P := 11
  Q := 13
  A := 1
  B := 6
  X := 2
  Y := 7
  PointSize := 32
  Exp := specExp 11 1
  Add := specAdd 11 1

/-- The public key of the private scalar `d = 2` on `toyCurve`: the point
`2 * (2, 7) = (5, 2)`. -/
def toyPub : PublicKey := ⟨toyCurve, 5, 2⟩

/-- A 64-byte signature on `toyCurve`: `s` big-endian on the first 32 bytes,
`r` big-endian on the last 32 bytes. -/
def toySignature (s r : Byte) : List Byte :=
  List.replicate 31 0 ++ [s] ++ (List.replicate 31 0 ++ [r])

/-- The result of `math/big`'s `ModSqrt` for a modulus `p` that is a prime
with `p % 4 = 3`: `nil` when `x` is not a square modulo `p`, 0 for a multiple
of `p`, and otherwise the root `x ^ ((p + 1) / 4) mod p`. -/
def modSqrt3Mod4 (x p : Int) : Option Int :=
  let x := x % p
  if x = 0 then some 0
  else if x ^ ((p - 1) / 2).toNat % p = 1 then some (x ^ ((p + 1) / 4).toNat % p)
  else none

/-- The key `pub` on a curve whose method `Exp` is replaced by `f`; every other
field is kept. -/
def PublicKey.withExp (pub : PublicKey) (f : Int → Int → Int → Except String (Int × Int)) :
    PublicKey :=
  ⟨⟨pub.C.P, pub.C.Q, pub.C.A, pub.C.B, pub.C.X, pub.C.Y, pub.C.PointSize, f, pub.C.Add⟩,
    pub.X, pub.Y⟩

/-- The little-endian value of a byte string: byte `i` has weight `256 ^ i`.
This is the reading of the wire format in the words of the spec; the code
reverses the buffer and reads it big-endian instead. -/
def littleEndian (l : List Byte) : Nat :=
  l.foldr (fun b acc => b.val + 256 * acc) 0

/-- A second small curve, with a point of order 2: `y² = x³ + x + 9` over the
integers modulo 19 (26 points), base point `(0, 3)` of prime order 13.  The
cubic `x³ + x + 9` vanishes at `x = 2`. -/
def toyCurve2 : Curve where
  P := 19
  Q := 13
  A := 1
  B := 9
  X := 0
  Y := 3
  PointSize := 32
  Exp := specExp 19 1
  Add := specAdd 19 1

/-- The public key of the private scalar `d = 2` on `toyCurve2`: the point
`2 * (0, 3) = (9, 5)`. -/
def toyPub2 : PublicKey := ⟨toyCurve2, 9, 5⟩

/-- The key `pub` on a curve whose methods `Exp` and `Add` are replaced by `f`
and `g`; every other field is kept. -/
def PublicKey.withOps (pub : PublicKey) (f : Int → Int → Int → Except String (Int × Int))
    (g : Int → Int → Int → Int → Int × Int) : PublicKey :=
  ⟨⟨pub.C.P, pub.C.Q, pub.C.A, pub.C.B, pub.C.X, pub.C.Y, pub.C.PointSize, f, g⟩,
    pub.X, pub.Y⟩

/-- The number `e` of `VerifyDigest` (lines 70-74; `z` in `Ecrecover`): the
digest read big-endian and reduced modulo `Q`, with 0 replaced by 1. -/
def digestScalar (digest : List Byte) (Q : Int) : Int :=
  if bytes2big digest % Q = 0 then 1 else bytes2big digest % Q

/-- Lines 84-111 of `VerifyDigest`: the two calls of `Exp`, with the scalars
`z1` and `z2` they are given, and what follows them. -/
def verifyExp (pub : PublicKey) (r z1 z2 : Int) : Option (Bool × Option String) :=
  match pub.C.Exp z1 pub.C.X pub.C.Y with
  | .error err => some (false, some err)
  | .ok (p1x, p1y) =>
    match pub.C.Exp z2 pub.X pub.Y with
    | .error err => some (false, some err)
    | .ok (q1x, q1y) => verifyTail pub.C.P pub.C.Q r p1x p1y q1x q1y

/-- Modelled from the spec: `Curve.Equal` is missing from the sources; the
spec says "curve equality is structural (same P, A, B, Q, base point), not
reference identity". -/
def Curve.Equal (our their : Curve) : Bool :=
  decide (our.P = their.P) && decide (our.A = their.A) && decide (our.B = their.B)
    && decide (our.Q = their.Q) && decide (our.X = their.X) && decide (our.Y = their.Y)

/-- What a value of the interface type `crypto.PublicKey` can hold, as far as
the type assertion of `Equal` tells: a `*PublicKey` of this package, or a
value of any other type (named by a tag). -/
inductive CryptoPublicKey where
  | gost (key : PublicKey)
  | other (tag : String)

/-- The method `Equal`. -/
def PublicKey.Equal (our : PublicKey) (theirKey : CryptoPublicKey) : Bool :=
  match theirKey with
  | .other _ => false
  | .gost their => decide (our.X = their.X) && decide (our.Y = their.Y) && our.C.Equal their.C

/-- Byte `i` of the little-endian reading of `v`: the digit of weight
`256 ^ i`. -/
def wireByte (v i : Nat) : Byte :=
  Fin.ofNat (v / 256 ^ i % 256)

/-- The `size` bytes of `v`, least significant first: byte `i` is the digit of
weight `256 ^ i`.  This reads the bytes of a coordinate on the wire by
division, without `Bytes` and `pad`. -/
def fixedLittleEndian (size v : Nat) : List Byte :=
  (List.range size).map (wireByte v)

/-- In the words of the spec, `pad(Y, PointSize)`: the `size` bytes of `v`,
most significant first. -/
def fixedBigEndian (size v : Nat) : List Byte :=
  (fixedLittleEndian size v).reverse

/-- The pair `(r, s)` that a signature holds: `r` is read from
`signature[pointSize:]` and `s` from `signature[:pointSize]` (lines 62-63 of
`VerifyDigest`, lines 127-128 of `Ecrecover`). -/
def decodeSignature (pointSize : Nat) (signature : List Byte) : Int × Int :=
  (bytes2big (signature.drop pointSize), bytes2big (signature.take pointSize))

/-- Lines 64-111 of `VerifyDigest`: what the method does with the decoded
numbers `r` and `s`. -/
def verifyDecoded (pub : PublicKey) (digest : List Byte) (r s : Int) :
    Option (Bool × Option String) :=
  if r ≤ 0 ∨ r ≥ pub.C.Q ∨ s ≤ 0 ∨ s ≥ pub.C.Q then some (false, none)
  else
    (bigMod (bytes2big digest) pub.C.Q).bind fun e =>
    let e := if e = 0 then 1 else e
    (bigModInverse 0 e pub.C.Q).bind fun v =>
    (bigMod (s * v) pub.C.Q).bind fun z1 =>
    (bigMod (r * v) pub.C.Q).bind fun z2 =>
    let z2 := pub.C.Q - z2
    match pub.C.Exp z1 pub.C.X pub.C.Y with
    | .error err => some (false, some err)
    | .ok (p1x, p1y) =>
      match pub.C.Exp z2 pub.X pub.Y with
      | .error err => some (false, some err)
      | .ok (q1x, q1y) => verifyTail pub.C.P pub.C.Q r p1x p1y q1x q1y

/-- Lines 130-189 of `Ecrecover`: what the method does with the decoded
numbers `r` and `s`. -/
def recoverDecoded (ModSqrt : Int → Int → Option Int) (pub : PublicKey) (digest : List Byte)
    (r s : Int) : Option (Option Int × Option Int × Option String) :=
  if r ≤ 0 ∨ r ≥ pub.C.Q ∨ s ≤ 0 ∨ s ≥ pub.C.Q then
    some (none, none, some "error at r")
  else
    (bigMod (bytes2big digest) pub.C.Q).bind fun z =>
    let z := if z = 0 then 1 else z
    let x3 := r * r
    let x3 := x3 * r
    let aX := pub.C.A * r
    let x3 := x3 + aX
    let x3 := x3 + pub.C.B
    (bigMod x3 pub.C.P).bind fun x3 =>
    match ModSqrt x3 pub.C.P with
    | none => none
    | some y0 =>
      if y0 = 0 then some (none, none, some "error at computing y0")
      else recoverTail pub r s z y0

end Gost3410

/-! # The streaming hash (package `gost34112012`)

Only the test file of the package is among the sources; the hash itself is
modelled from the spec.  What the spec leaves to the standard (compression
step, initial values, block arithmetic, padding, digest extraction) is a
parameter `Engine`, so every theorem holds for every engine. -/

namespace Gost34112012

open Gost3410 (Byte littleEndian bytesLE)

/-- Modelled from the spec: the constant `BlockSize` is used by the test file
and declared in the missing implementation; the spec says "block size
constant = 64 bytes". -/
def BlockSize : Nat := 64

/-- The modulus `2^512 = 256^64` of the length counter. -/
def counterModulus : Nat := 256 ^ 64

/-- A value of exactly `BlockSize` bytes. -/
abbrev Block := { l : List Byte // l.length = BlockSize }

/-- The first `BlockSize` bytes of `l`, with zero bytes added when `l` is
shorter: the conversion of a byte string to a block. -/
def toBlock (l : List Byte) : Block :=
  ⟨(l ++ List.replicate BlockSize 0).take BlockSize, by
    simp [List.length_take, List.length_append]⟩

/-- The block of zero bytes. -/
def zeroBlock : Block := toBlock []

/-- Modelled from the spec: the hash implementation is missing from the
sources.  These are the parts of the engine that the spec leaves to the
standard: the initial chaining value for an output size, "the compression
step" (given the length counter, the chaining value and a block), the
"running modular sum" of blocks, the padding of "the pending partial block
per the standard's finalization rule", the block that holds the final length,
and the extraction of "the top/bottom `OutputSize` bytes". -/
structure Engine where
  initial : Nat → Block
  compress : Nat → Block → Block → Block
  addBlock : Block → Block → Block
  padBlock : List Byte → Block
  lengthBlock : Nat → Block
  extract : Nat → Block → List Byte

/-- Modelled from the spec: the hash implementation is missing from the
sources; this is `HashState` of the spec: `OutputSize`, `ChainingValue`,
`LengthCounter` (in bits, modulo `2^512`), `ChecksumAccumulator` and
`PendingBuffer`, whose length is `PendingLength`. -/
structure Hash where
  size : Nat
  hsh : Block
  n : Nat
  chk : Block
  buf : List Byte

/-- Modelled from the spec: `Reset` "restores `ChainingValue`,
`LengthCounter`, `ChecksumAccumulator` to the initial values for the
configured `OutputSize`, and clears `PendingBuffer`/`PendingLength`". -/
def Hash.Reset (E : Engine) (h : Hash) : Hash :=
  ⟨h.size, E.initial h.size, 0, zeroBlock, []⟩

/-- Modelled from the spec: `New(size)` constructs a hash of the given
output size in its initial state. -/
def New (E : Engine) (size : Nat) : Hash :=
  ⟨size, E.initial size, 0, zeroBlock, []⟩

/-- Modelled from the spec: one step of `Write`, taken when a full block is
pending: "the full block is run through the compression step,
`LengthCounter` is advanced by the block's bit length, `ChecksumAccumulator`
is updated, and `ChainingValue` is replaced by the compression output". -/
def Hash.step (E : Engine) (h : Hash) : Hash :=
  ⟨h.size, E.compress h.n h.hsh (toBlock (h.buf.take BlockSize)),
    (h.n + 8 * BlockSize) % counterModulus,
    E.addBlock h.chk (toBlock (h.buf.take BlockSize)),
    h.buf.drop BlockSize⟩

/-- Modelled from the spec: the loop of `Write`: "whenever `PendingLength`
reaches `BlockSize`" a step is taken.  `fuel` bounds the number of steps. -/
def absorb (E : Engine) : Nat → Hash → Hash
  | 0, h => h
  | fuel + 1, h => if BlockSize ≤ h.buf.length then absorb E fuel (h.step E) else h

/-- The state `h` with `data` appended to its pending buffer. -/
def Hash.append (h : Hash) (data : List Byte) : Hash :=
  ⟨h.size, h.hsh, h.n, h.chk, h.buf ++ data⟩

/-- Modelled from the spec: `Write(data)` "appends to `PendingBuffer`" and
compresses every full block. -/
def Hash.Write (E : Engine) (h : Hash) (data : List Byte) : Hash :=
  absorb E (h.buf.length + data.length) (h.append data)

/-- Modelled from the spec: the digest of `Sum`: it "pads the pending partial
block per the standard's finalization rule, folds in the final length and
checksum blocks, and extracts the top/bottom `OutputSize` bytes of the
resulting 64-byte value". -/
def Hash.digest (E : Engine) (h : Hash) : List Byte :=
  let block := E.padBlock h.buf
  let v := E.compress h.n h.hsh block
  let v := E.compress 0 v (E.lengthBlock ((h.n + 8 * h.buf.length) % counterModulus))
  let v := E.compress 0 v (E.addBlock h.chk block)
  E.extract h.size v

/-- Modelled from the spec: `Sum(in)` "operates on a private copy of the
current state (never mutates the live instance)"; it returns the state it
leaves behind and `in` followed by the digest. -/
def Hash.Sum (E : Engine) (h : Hash) (b : List Byte) : Hash × List Byte :=
  (h, b ++ h.digest E)

/-- The 64 little-endian bytes of a length counter below `counterModulus`. -/
def counterBytes (n : Nat) : List Byte :=
  bytesLE n n ++ List.replicate (BlockSize - (bytesLE n n).length) 0

/-- Modelled from the spec: `MarshalBinary` produces "an exact byte encoding
of every field" of the state; the layout is "implementation-defined" and is
taken here as: output size (1 byte), chaining value (64 bytes), length
counter (64 bytes), checksum accumulator (64 bytes), pending length (1 byte),
pending buffer.  It returns the encoding and a `nil` error. -/
def Hash.MarshalBinary (h : Hash) : List Byte × Option String :=
  (Fin.ofNat h.size :: (h.hsh.val ++ (counterBytes h.n ++ (h.chk.val
    ++ (Fin.ofNat h.buf.length :: h.buf)))), none)

/-- Modelled from the spec: `UnmarshalBinary` consumes the encoding of
`MarshalBinary`; "deserializing malformed/short input fails with a typed
format error" and leaves the receiver as it was.  It returns the receiver
after the call and the error. -/
def Hash.UnmarshalBinary (h : Hash) (data : List Byte) : Hash × Option String :=
  if data.length < 2 + 3 * BlockSize then
    (h, some "gogost/internal/gost34112012: not enough data")
  else
    let size := (data.headD 0).val
    let rest := data.drop 1
    let hsh := toBlock (rest.take BlockSize)
    let rest := rest.drop BlockSize
    let n := littleEndian (rest.take BlockSize)
    let rest := rest.drop BlockSize
    let chk := toBlock (rest.take BlockSize)
    let rest := rest.drop BlockSize
    let pendingLength := (rest.headD 0).val
    let pending := rest.drop 1
    if (size ≠ 32 ∧ size ≠ 64) ∨ BlockSize ≤ pendingLength ∨ pending.length ≠ pendingLength then
      (h, some "gogost/internal/gost34112012: malformed state")
    else (⟨size, hsh, n, chk, pending⟩, none)

/-- The states a hash can be in: made by `New` with an output size of 32 or
64 bytes, and changed by `Reset`, `Write`, `Sum` and a successful
`UnmarshalBinary`. -/
inductive Reachable (E : Engine) : Hash → Prop where
  | new (size : Nat) (hsize : size = 32 ∨ size = 64) : Reachable E (New E size)
  | reset (h : Hash) (hr : Reachable E h) : Reachable E (h.Reset E)
  | write (h : Hash) (data : List Byte) (hr : Reachable E h) : Reachable E (h.Write E data)
  | sum (h : Hash) (b : List Byte) (hr : Reachable E h) : Reachable E (h.Sum E b).1
  | unmarshal (h : Hash) (data : List Byte) (hr : Reachable E h) (r : Hash)
      (hok : h.UnmarshalBinary data = (r, none)) : Reachable E r

/-- A small engine for concrete runs: the compression step adds the block to
the chaining value byte by byte, the sum of blocks does the same, the padding
appends the byte 1 and zero bytes, the length block holds the little-endian
length, and the digest is the first `OutputSize` bytes. -/
def toyEngine : Engine where
  initial := fun size => toBlock (List.replicate BlockSize (Fin.ofNat size))
  compress := fun n h m => toBlock (List.zipWith (fun a b => a + b + Fin.ofNat n) h.val m.val)
  addBlock := fun a b => toBlock (List.zipWith (fun x y => x + y) a.val b.val)
  padBlock := fun l => toBlock (l ++ [1])
  lengthBlock := fun n => toBlock (counterBytes n)
  extract := fun size v => v.val.take size

end Gost34112012

namespace Gost3410

/-! ## Bytes and integers: the two conversions are inverse to each other -/

theorem bytes2big_reverse (l : List Byte) :
    bytes2big l.reverse = (littleEndian l : Int) := by
  unfold bytes2big littleEndian
  rw [List.foldl_reverse]
  induction l with
  | nil => simp
  | cons b t ih =>
    simp only [List.foldr_cons, ih]
    push_cast
    ring

theorem bytes2big_eq (d : List Byte) :
    bytes2big d = (littleEndian d.reverse : Int) := by
  rw [← bytes2big_reverse, List.reverse_reverse]

theorem bytes2big_nonneg (d : List Byte) : 0 ≤ bytes2big d := by
  rw [bytes2big_eq]
  exact Int.natCast_nonneg _

theorem littleEndian_append (a b : List Byte) :
    littleEndian (a ++ b) = littleEndian a + 256 ^ a.length * littleEndian b := by
  induction a with
  | nil => simp [littleEndian]
  | cons x t ih =>
    have hx : littleEndian (x :: (t ++ b)) = x.val + 256 * littleEndian (t ++ b) := rfl
    have hy : littleEndian (x :: t) = x.val + 256 * littleEndian t := rfl
    rw [List.cons_append, hx, hy, ih, List.length_cons, pow_succ]
    ring

theorem littleEndian_replicate_zero (k : Nat) :
    littleEndian (List.replicate k (0 : Byte)) = 0 := by
  induction k with
  | zero => rfl
  | succ k ih =>
    have hx : littleEndian ((0 : Byte) :: List.replicate k 0)
        = (0 : Byte).val + 256 * littleEndian (List.replicate k 0) := rfl
    rw [List.replicate_succ, hx, ih]
    rfl

theorem littleEndian_lt (l : List Byte) : littleEndian l < 256 ^ l.length := by
  induction l with
  | nil => simp [littleEndian]
  | cons x t ih =>
    have hx : littleEndian (x :: t) = x.val + 256 * littleEndian t := rfl
    have hb : x.val < 256 := x.isLt
    rw [hx, List.length_cons, pow_succ]
    omega

theorem bytesLE_fuel (fuel1 : Nat) :
    ∀ (fuel2 n : Nat), n ≤ fuel1 → n ≤ fuel2 → bytesLE fuel1 n = bytesLE fuel2 n := by
  induction fuel1 with
  | zero =>
    intro fuel2 n h1 _
    have hn : n = 0 := by omega
    subst hn
    cases fuel2 <;> simp [bytesLE]
  | succ f ih =>
    intro fuel2 n h1 h2
    cases fuel2 with
    | zero =>
      have hn : n = 0 := by omega
      subst hn
      simp [bytesLE]
    | succ g =>
      by_cases hn : n = 0
      · simp [bytesLE, hn]
      · have hd : n / 256 < n := Nat.div_lt_self (Nat.pos_of_ne_zero hn) (by decide)
        simp only [bytesLE, hn, if_false]
        rw [ih g (n / 256) (by omega) (by omega)]

theorem bytesLE_pos (n : Nat) (hn : n ≠ 0) :
    bytesLE n n = Fin.ofNat (n % 256) :: bytesLE (n / 256) (n / 256) := by
  obtain ⟨m, rfl⟩ := Nat.exists_eq_succ_of_ne_zero hn
  have hd : (m + 1) / 256 < m + 1 := Nat.div_lt_self (Nat.succ_pos m) (by decide)
  have h : bytesLE (m + 1) (m + 1)
      = Fin.ofNat ((m + 1) % 256) :: bytesLE m ((m + 1) / 256) := by
    simp [bytesLE]
  rw [h, bytesLE_fuel m ((m + 1) / 256) ((m + 1) / 256) (by omega) (le_refl _)]

theorem littleEndian_bytesLE (n : Nat) : littleEndian (bytesLE n n) = n := by
  induction n using Nat.strong_induction_on with
  | _ n ih =>
    by_cases hn : n = 0
    · subst hn
      rfl
    · have hd : n / 256 < n := Nat.div_lt_self (Nat.pos_of_ne_zero hn) (by decide)
      rw [bytesLE_pos n hn]
      have hx : littleEndian (Fin.ofNat (n % 256) :: bytesLE (n / 256) (n / 256))
          = (Fin.ofNat (n % 256) : Byte).val + 256 * littleEndian (bytesLE (n / 256) (n / 256)) :=
        rfl
      have hv : (Fin.ofNat (n % 256) : Byte).val = n % 256 := by
        simp [Fin.ofNat]
      rw [hx, ih _ hd, hv]
      omega

theorem bytesLE_length_le (k : Nat) :
    ∀ n : Nat, n < 256 ^ k → (bytesLE n n).length ≤ k := by
  induction k with
  | zero =>
    intro n hn
    have h0 : n = 0 := by simpa using hn
    subst h0
    simp [bytesLE]
  | succ k ih =>
    intro n hn
    by_cases h0 : n = 0
    · subst h0
      simp [bytesLE]
    · rw [bytesLE_pos n h0, List.length_cons]
      have hd : n / 256 < 256 ^ k := by
        rw [pow_succ] at hn
        exact Nat.div_lt_of_lt_mul (by omega)
      have := ih _ hd
      omega

theorem bytesLE_littleEndian (l : List Byte) :
    bytesLE (littleEndian l) (littleEndian l)
      ++ List.replicate (l.length - (bytesLE (littleEndian l) (littleEndian l)).length) 0 = l := by
  induction l with
  | nil => rfl
  | cons b t ih =>
    have hx : littleEndian (b :: t) = b.val + 256 * littleEndian t := rfl
    have hb : b.val < 256 := b.isLt
    by_cases h0 : littleEndian (b :: t) = 0
    · have hb0 : b.val = 0 := by omega
      have ht0 : littleEndian t = 0 := by omega
      have hbz : b = 0 := Fin.ext hb0
      rw [ht0] at ih
      rw [h0]
      simp only [bytesLE, List.length_nil, List.nil_append, Nat.sub_zero] at ih ⊢
      rw [List.length_cons, List.replicate_succ, ih, hbz]
    · rw [bytesLE_pos _ h0]
      have hm : (b.val + 256 * littleEndian t) % 256 = b.val := by omega
      have hd : (b.val + 256 * littleEndian t) / 256 = littleEndian t := by omega
      rw [hx, hm, hd]
      simp only [List.length_cons, List.cons_append, Nat.succ_sub_succ]
      rw [ih]
      congr 1
      apply Fin.ext
      simp [Fin.ofNat]

theorem pad_bigBytes_bytes2big (d : List Byte) :
    pad (bigBytes (bytes2big d)) d.length = d := by
  have h := bytesLE_littleEndian d.reverse
  have hn : (bytes2big d).natAbs = littleEndian d.reverse := by
    rw [bytes2big_eq, Int.natAbs_cast]
  unfold pad bigBytes
  rw [hn, List.length_reverse]
  rw [List.length_reverse] at h
  have h2 := congrArg List.reverse h
  rw [List.reverse_append, List.reverse_replicate, List.reverse_reverse] at h2
  exact h2

theorem bytes2big_pad_bigBytes (x : Int) (k : Nat) (hx : 0 ≤ x) :
    bytes2big (pad (bigBytes x) k) = x := by
  rw [bytes2big_eq]
  unfold pad bigBytes
  rw [List.reverse_append, List.reverse_reverse, List.reverse_replicate, littleEndian_append,
    littleEndian_replicate_zero, littleEndian_bytesLE]
  simp only [mul_zero, add_zero]
  exact Int.natAbs_of_nonneg hx

theorem length_pad_bigBytes (x : Int) (k : Nat) (hx : x.natAbs < 256 ^ k) :
    (pad (bigBytes x) k).length = k := by
  have h := bytesLE_length_le k x.natAbs hx
  unfold pad bigBytes
  rw [List.length_append, List.length_replicate, List.length_reverse]
  omega

theorem natAbs_lt_of_bounds (x : Int) (k : Nat) (h0 : 0 ≤ x) (h1 : x < 256 ^ k) :
    x.natAbs < 256 ^ k := by
  have h : ((x.natAbs : Nat) : Int) < ((256 ^ k : Nat) : Int) := by
    rw [Int.natAbs_of_nonneg h0]
    push_cast
    exact h1
  exact_mod_cast h

/-! ## Public keys on the wire -/

/-- Claim C3.  Decoding a buffer of `2 * PointSize` bytes and encoding the key
again gives back the buffer, byte for byte, whatever the bytes are (leading or
trailing zero bytes, a point on the curve or not). -/
theorem NewPublicKey_Raw_roundtrip (c : Curve) (raw : List Byte)
    (hlen : raw.length = 2 * c.PointSize) :
    ∃ k : PublicKey, NewPublicKey c raw = (some k, none) ∧ k.Raw = raw := by
  refine ⟨⟨c, bytes2big ((raw.reverse.drop c.PointSize).take c.PointSize),
    bytes2big (raw.reverse.take c.PointSize)⟩, ?_, ?_⟩
  · simp [NewPublicKey, hlen]
  · have hl : raw.reverse.length = 2 * c.PointSize := by rw [List.length_reverse, hlen]
    have h1 : (raw.reverse.take c.PointSize).length = c.PointSize := by
      rw [List.length_take, hl]
      omega
    have h2 : (raw.reverse.drop c.PointSize).length = c.PointSize := by
      rw [List.length_drop, hl]
      omega
    have h3 : (raw.reverse.drop c.PointSize).take c.PointSize = raw.reverse.drop c.PointSize := by
      apply List.take_of_length_le
      omega
    have hy := pad_bigBytes_bytes2big (raw.reverse.take c.PointSize)
    have hx := pad_bigBytes_bytes2big (raw.reverse.drop c.PointSize)
    rw [h1] at hy
    rw [h2] at hx
    simp only [PublicKey.Raw, reverse]
    rw [h3, hy, hx, List.take_append_drop, List.reverse_reverse]

/-- Witness of C3 on a 64-byte buffer with zero bytes at both ends. -/
theorem NewPublicKey_Raw_roundtrip_witness :
    ∃ k : PublicKey, NewPublicKey toyCurve (toySignature 10 0) = (some k, none)
      ∧ k.Raw = toySignature 10 0 :=
  NewPublicKey_Raw_roundtrip toyCurve (toySignature 10 0) (by decide)

/-- Claim C4.  Encoding a key whose coordinates fit on `PointSize` bytes and
decoding the result on the same curve gives back the key: same curve, same
`X`, same `Y`. -/
theorem Raw_NewPublicKey_roundtrip (pub : PublicKey)
    (hX0 : 0 ≤ pub.X) (hX1 : pub.X < 256 ^ pub.C.PointSize)
    (hY0 : 0 ≤ pub.Y) (hY1 : pub.Y < 256 ^ pub.C.PointSize) :
    NewPublicKey pub.C pub.Raw = (some pub, none) := by
  have lx := length_pad_bigBytes pub.X pub.C.PointSize (natAbs_lt_of_bounds _ _ hX0 hX1)
  have ly := length_pad_bigBytes pub.Y pub.C.PointSize (natAbs_lt_of_bounds _ _ hY0 hY1)
  have hlen : pub.Raw.length = 2 * pub.C.PointSize := by
    simp only [PublicKey.Raw, reverse, List.length_reverse, List.length_append, lx, ly]
    omega
  have hrev : pub.Raw.reverse
      = pad (bigBytes pub.Y) pub.C.PointSize ++ pad (bigBytes pub.X) pub.C.PointSize := by
    simp only [PublicKey.Raw, reverse, List.reverse_reverse]
  have ht : (pad (bigBytes pub.Y) pub.C.PointSize
      ++ pad (bigBytes pub.X) pub.C.PointSize).take pub.C.PointSize
      = pad (bigBytes pub.Y) pub.C.PointSize := by
    rw [List.take_append_of_le_length (by omega), List.take_of_length_le (by omega)]
  have hd : (pad (bigBytes pub.Y) pub.C.PointSize
      ++ pad (bigBytes pub.X) pub.C.PointSize).drop pub.C.PointSize
      = pad (bigBytes pub.X) pub.C.PointSize := by
    rw [List.drop_append_of_le_length (by omega), List.drop_of_length_le (by omega),
      List.nil_append]
  have hk : (pad (bigBytes pub.X) pub.C.PointSize).take pub.C.PointSize
      = pad (bigBytes pub.X) pub.C.PointSize := List.take_of_length_le (by omega)
  unfold NewPublicKey
  simp only [hlen, ne_eq, not_true_eq_false, if_false, hrev, ht, hd, hk,
    bytes2big_pad_bigBytes _ _ hX0, bytes2big_pad_bigBytes _ _ hY0]

/-- Witness of C4 on the key `(5, 2)` of the small curve. -/
theorem Raw_NewPublicKey_roundtrip_witness :
    (0 : Int) ≤ toyPub.X ∧ toyPub.X < 256 ^ toyPub.C.PointSize
      ∧ NewPublicKey toyPub.C toyPub.Raw = (some toyPub, none) :=
  ⟨by decide, by decide,
    Raw_NewPublicKey_roundtrip toyPub (by decide) (by decide) (by decide) (by decide)⟩

theorem fixedLittleEndian_succ (k v : Nat) :
    fixedLittleEndian (k + 1) v = Fin.ofNat (v % 256) :: fixedLittleEndian k (v / 256) := by
  unfold fixedLittleEndian
  rw [List.range_succ_eq_map, List.map_cons, List.map_map]
  have h0 : wireByte v 0 = Fin.ofNat (v % 256) := by
    simp [wireByte]
  have h1 : wireByte v ∘ Nat.succ = wireByte (v / 256) := by
    funext i
    simp only [Function.comp, wireByte, Nat.succ_eq_add_one]
    rw [pow_succ, mul_comm, Nat.div_div_eq_div_mul]
  rw [h0, h1]

theorem fixedLittleEndian_length (k v : Nat) : (fixedLittleEndian k v).length = k := by
  simp [fixedLittleEndian]

theorem littleEndian_fixedLittleEndian (k : Nat) :
    ∀ v : Nat, littleEndian (fixedLittleEndian k v) = v % 256 ^ k := by
  induction k with
  | zero =>
    intro v
    simp [fixedLittleEndian, littleEndian, Nat.mod_one]
  | succ k ih =>
    intro v
    rw [fixedLittleEndian_succ]
    have hx : littleEndian (Fin.ofNat (v % 256) :: fixedLittleEndian k (v / 256))
        = (Fin.ofNat (v % 256) : Byte).val + 256 * littleEndian (fixedLittleEndian k (v / 256)) :=
      rfl
    have hv : (Fin.ofNat (v % 256) : Byte).val = v % 256 := by
      simp [Fin.ofNat]
    rw [hx, ih, hv, pow_succ, mul_comm (256 ^ k) 256, Nat.mod_mul]

/-- For a coordinate that fits, the padded bytes of `Bytes` are its digits
read by division. -/
theorem pad_bigBytes_eq_fixedBigEndian (x : Int) (k : Nat) (h0 : 0 ≤ x) (h1 : x < 256 ^ k) :
    pad (bigBytes x) k = fixedBigEndian k x.toNat := by
  have hn : x.natAbs = x.toNat := by omega
  have hlt : x.toNat < 256 ^ k := by
    rw [← hn]
    exact natAbs_lt_of_bounds x k h0 h1
  have h := bytesLE_littleEndian (fixedLittleEndian k x.toNat)
  rw [littleEndian_fixedLittleEndian, Nat.mod_eq_of_lt hlt, fixedLittleEndian_length] at h
  unfold pad bigBytes fixedBigEndian
  rw [hn, List.length_reverse, ← h, List.reverse_append, List.reverse_replicate]

/-- Claim C5.  Wire layout: for a buffer of `2 * PointSize` bytes the decoded
`Y` is the big-endian value of the first `PointSize` bytes of the reversed
buffer and `X` that of the remaining ones; equivalently `X` is the
little-endian value of `raw[0:PointSize]` and `Y` that of
`raw[PointSize:2*PointSize]`.  For a key whose coordinates fit on `PointSize`
bytes, `Raw` is `reverse (pad(Y) ++ pad(X))` with `pad` the fixed-width
big-endian digits: byte `i` of `Raw` is the digit of weight `256 ^ i` of `X`
and byte `PointSize + i` that of `Y`. -/
theorem NewPublicKey_wire_layout (c : Curve) (raw : List Byte)
    (hlen : raw.length = 2 * c.PointSize) (key : PublicKey)
    (hX0 : 0 ≤ key.X) (hX1 : key.X < 256 ^ key.C.PointSize)
    (hY0 : 0 ≤ key.Y) (hY1 : key.Y < 256 ^ key.C.PointSize) :
    (∃ k : PublicKey, NewPublicKey c raw = (some k, none) ∧ k.C = c
      ∧ k.Y = bytes2big ((reverse raw).take c.PointSize)
      ∧ k.X = bytes2big ((reverse raw).drop c.PointSize)
      ∧ k.X = (littleEndian (raw.take c.PointSize) : Int)
      ∧ k.Y = (littleEndian ((raw.drop c.PointSize).take c.PointSize) : Int))
    ∧ key.Raw = reverse (fixedBigEndian key.C.PointSize key.Y.toNat
        ++ fixedBigEndian key.C.PointSize key.X.toNat)
    ∧ key.Raw = fixedLittleEndian key.C.PointSize key.X.toNat
        ++ fixedLittleEndian key.C.PointSize key.Y.toNat
    ∧ key.Raw.length = 2 * key.C.PointSize
    ∧ (littleEndian (key.Raw.take key.C.PointSize) : Int) = key.X
    ∧ (littleEndian (key.Raw.drop key.C.PointSize) : Int) = key.Y := by
  have hl : raw.reverse.length = 2 * c.PointSize := by rw [List.length_reverse, hlen]
  have h3 : (raw.reverse.drop c.PointSize).take c.PointSize = raw.reverse.drop c.PointSize := by
    apply List.take_of_length_le
    rw [List.length_drop, hl]
    omega
  have h4 : (raw.drop c.PointSize).take c.PointSize = raw.drop c.PointSize := by
    apply List.take_of_length_le
    rw [List.length_drop, hlen]
    omega
  have h5 : raw.reverse.take c.PointSize = (raw.drop c.PointSize).reverse := by
    rw [List.take_reverse, hlen]
    congr 2
    omega
  have h6 : raw.reverse.drop c.PointSize = (raw.take c.PointSize).reverse := by
    rw [List.drop_reverse, hlen]
    congr 2
    omega
  have hraw : key.Raw = reverse (fixedBigEndian key.C.PointSize key.Y.toNat
      ++ fixedBigEndian key.C.PointSize key.X.toNat) := by
    simp only [PublicKey.Raw]
    rw [pad_bigBytes_eq_fixedBigEndian key.Y _ hY0 hY1,
      pad_bigBytes_eq_fixedBigEndian key.X _ hX0 hX1]
  have hle : key.Raw = fixedLittleEndian key.C.PointSize key.X.toNat
      ++ fixedLittleEndian key.C.PointSize key.Y.toNat := by
    rw [hraw]
    simp only [reverse, fixedBigEndian, List.reverse_append, List.reverse_reverse]
  have hXn : key.X.toNat < 256 ^ key.C.PointSize := by
    have := natAbs_lt_of_bounds key.X _ hX0 hX1
    omega
  have hYn : key.Y.toNat < 256 ^ key.C.PointSize := by
    have := natAbs_lt_of_bounds key.Y _ hY0 hY1
    omega
  refine ⟨⟨⟨c, bytes2big ((raw.reverse.drop c.PointSize).take c.PointSize),
    bytes2big (raw.reverse.take c.PointSize)⟩, ?_, rfl, rfl, ?_, ?_, ?_⟩, hraw, hle, ?_, ?_, ?_⟩
  · simp [NewPublicKey, hlen]
  · simp only [reverse, h3]
  · show bytes2big ((raw.reverse.drop c.PointSize).take c.PointSize) = _
    rw [h3, h6, bytes2big_reverse]
  · show bytes2big (raw.reverse.take c.PointSize) = _
    rw [h4, h5, bytes2big_reverse]
  · rw [hle, List.length_append, fixedLittleEndian_length, fixedLittleEndian_length]
    omega
  · rw [hle, List.take_left' (fixedLittleEndian_length _ _), littleEndian_fixedLittleEndian,
      Nat.mod_eq_of_lt hXn]
    exact Int.toNat_of_nonneg hX0
  · rw [hle, List.drop_left' (fixedLittleEndian_length _ _), littleEndian_fixedLittleEndian,
      Nat.mod_eq_of_lt hYn]
    exact Int.toNat_of_nonneg hY0

/-- Witness of C5 on a 64-byte buffer and the key `(5, 2)` of the small
curve. -/
theorem NewPublicKey_wire_layout_witness :
    (∃ k : PublicKey, NewPublicKey toyCurve (toySignature 3 7) = (some k, none) ∧ k.C = toyCurve
      ∧ k.Y = bytes2big ((reverse (toySignature 3 7)).take toyCurve.PointSize)
      ∧ k.X = bytes2big ((reverse (toySignature 3 7)).drop toyCurve.PointSize)
      ∧ k.X = (littleEndian ((toySignature 3 7).take toyCurve.PointSize) : Int)
      ∧ k.Y = (littleEndian (((toySignature 3 7).drop toyCurve.PointSize).take
          toyCurve.PointSize) : Int))
    ∧ toyPub.Raw = reverse (fixedBigEndian toyPub.C.PointSize toyPub.Y.toNat
        ++ fixedBigEndian toyPub.C.PointSize toyPub.X.toNat)
    ∧ toyPub.Raw = fixedLittleEndian toyPub.C.PointSize toyPub.X.toNat
        ++ fixedLittleEndian toyPub.C.PointSize toyPub.Y.toNat
    ∧ toyPub.Raw.length = 2 * toyPub.C.PointSize
    ∧ (littleEndian (toyPub.Raw.take toyPub.C.PointSize) : Int) = toyPub.X
    ∧ (littleEndian (toyPub.Raw.drop toyPub.C.PointSize) : Int) = toyPub.Y :=
  NewPublicKey_wire_layout toyCurve (toySignature 3 7) (by decide) toyPub
    (by decide) (by decide) (by decide) (by decide)

/-- Claim C6.  `NewPublicKey` returns an error and no key exactly when the
buffer does not have `2 * PointSize` bytes, and returns a key and no error
exactly when it has. -/
theorem NewPublicKey_error_iff_length (c : Curve) (raw : List Byte) :
    ((∃ msg, NewPublicKey c raw = (none, some msg)) ↔ raw.length ≠ 2 * c.PointSize)
    ∧ ((∃ k, NewPublicKey c raw = (some k, none)) ↔ raw.length = 2 * c.PointSize) := by
  by_cases h : raw.length = 2 * c.PointSize
  · simp [NewPublicKey, h]
  · simp [NewPublicKey, h]

/-! ## Signatures that are rejected before any arithmetic -/

/-- Claim C2.  A signature of the right length whose `r` (last `PointSize`
bytes) or `s` (first `PointSize` bytes) is 0 or at least `Q` makes
`VerifyDigest` return `(false, nil)`; the result does not depend on what `Exp`
does, so no scalar multiplication takes part in it. -/
theorem VerifyDigest_out_of_range (pub : PublicKey) (digest signature : List Byte)
    (hlen : signature.length = 2 * pub.C.PointSize)
    (hrs : (bytes2big (signature.drop pub.C.PointSize) = 0
        ∨ pub.C.Q ≤ bytes2big (signature.drop pub.C.PointSize))
      ∨ (bytes2big (signature.take pub.C.PointSize) = 0
        ∨ pub.C.Q ≤ bytes2big (signature.take pub.C.PointSize))) :
    pub.VerifyDigest digest signature = some (false, none)
    ∧ ∀ f, (pub.withExp f).VerifyDigest digest signature = some (false, none) := by
  have hc : bytes2big (signature.drop pub.C.PointSize) ≤ 0
      ∨ bytes2big (signature.drop pub.C.PointSize) ≥ pub.C.Q
      ∨ bytes2big (signature.take pub.C.PointSize) ≤ 0
      ∨ bytes2big (signature.take pub.C.PointSize) ≥ pub.C.Q := by
    rcases hrs with (h | h) | (h | h)
    · exact Or.inl (le_of_eq h)
    · exact Or.inr (Or.inl h)
    · exact Or.inr (Or.inr (Or.inl (le_of_eq h)))
    · exact Or.inr (Or.inr (Or.inr h))
  constructor
  · simp only [PublicKey.VerifyDigest, hlen, ne_eq, not_true_eq_false, if_false, hc, if_true]
  · intro f
    simp only [PublicKey.VerifyDigest, PublicKey.withExp, hlen, ne_eq, not_true_eq_false,
      if_false, hc, if_true]

/-- Witness of C2: `r = 13 = Q` on the small curve. -/
theorem VerifyDigest_out_of_range_witness :
    toyPub.VerifyDigest [2] (toySignature 10 13) = some (false, none)
    ∧ ∀ f, (toyPub.withExp f).VerifyDigest [2] (toySignature 10 13) = some (false, none) :=
  VerifyDigest_out_of_range toyPub [2] (toySignature 10 13) (by decide) (by decide)

/-- Claim C7.  A signature whose length is not `2 * PointSize` makes
`VerifyDigest` return `(false, err)` and `Ecrecover` return `(nil, nil, err)`
with a non-nil error; in `VerifyDigest` this differs from the
invalid-signature outcome `(false, nil)`. -/
theorem wrong_signature_length (ModSqrt : Int → Int → Option Int) (pub : PublicKey)
    (digest signature : List Byte) (hlen : signature.length ≠ 2 * pub.C.PointSize) :
    (∃ msg, pub.VerifyDigest digest signature = some (false, some msg))
    ∧ (∃ msg, pub.Ecrecover ModSqrt digest signature = some (none, none, some msg))
    ∧ pub.VerifyDigest digest signature ≠ some (false, none) := by
  simp [PublicKey.VerifyDigest, PublicKey.Ecrecover, hlen]

/-- Witness of C7 on a 63-byte signature. -/
theorem wrong_signature_length_witness :
    (∃ msg, toyPub.VerifyDigest [2] (List.replicate 63 1) = some (false, some msg))
    ∧ (∃ msg, toyPub.Ecrecover modSqrt3Mod4 [2] (List.replicate 63 1)
        = some (none, none, some msg))
    ∧ toyPub.VerifyDigest [2] (List.replicate 63 1) ≠ some (false, none) :=
  wrong_signature_length modSqrt3Mod4 toyPub [2] (List.replicate 63 1) (by decide)

/-! ## The model of `ModInverse` is the modular inverse -/

/-- With enough fuel `xgcdAux` is the extended Euclidean algorithm of the
library: it returns the greatest common divisor and the Bézout cofactor of
its first argument. -/
theorem xgcdAux_eq (fuel : Nat) :
    ∀ (r : Nat) (s t : Int) (r2 : Nat) (s2 t2 : Int), r ≤ fuel →
      xgcdAux fuel r s r2 s2
        = ((Nat.xgcdAux r s t r2 s2 t2).1, (Nat.xgcdAux r s t r2 s2 t2).2.1) := by
  induction fuel with
  | zero =>
    intro r s t r2 s2 t2 h
    have hr : r = 0 := by omega
    subst hr
    simp [xgcdAux]
  | succ f ih =>
    intro r s t r2 s2 t2 h
    by_cases hr : r = 0
    · subst hr
      simp [xgcdAux]
    · have hpos : 0 < r := Nat.pos_of_ne_zero hr
      have hlt : r2 % r < r := Nat.mod_lt _ hpos
      rw [Nat.xgcdAux_rec hpos]
      simp only [xgcdAux, hr, if_false]
      exact ih (r2 % r) _ (t2 - r2 / r * t) r s t (by omega)

theorem xgcdAux_gcd (a m : Nat) :
    xgcdAux a a 1 m 0 = (Nat.gcd a m, Nat.gcdA a m) := by
  rw [xgcdAux_eq a a 1 0 m 0 1 (le_refl a), Nat.xgcdAux_val, Nat.xgcd_val]

/-- For a non-negative `g` coprime to the modulus `n > 1`, `ModInverse` sets
its receiver to the inverse of `g` in the range `0 ≤ v < n`. -/
theorem bigModInverse_coprime (z g n : Int) (hg : 0 ≤ g) (hn : 1 < n)
    (hco : Nat.gcd g.toNat n.natAbs = 1) :
    ∃ v, bigModInverse z g n = some v ∧ 0 ≤ v ∧ v < n ∧ (g * v) % n = 1 := by
  have hn0 : (n.natAbs : Int) = n := Int.natAbs_of_nonneg (by omega)
  have hng : ¬ g < 0 := not_lt.mpr hg
  have hnz : n ≠ 0 := by omega
  refine ⟨Nat.gcdA g.toNat n.natAbs % n, ?_, Int.emod_nonneg _ hnz,
    Int.emod_lt_of_pos _ (by omega), ?_⟩
  · simp [bigModInverse, hng, xgcdAux_gcd, hco, hn0]
  · have hb := Nat.gcd_eq_gcd_ab g.toNat n.natAbs
    rw [hco, hn0, Int.toNat_of_nonneg hg] at hb
    rw [Int.mul_emod, Int.emod_emod, ← Int.mul_emod]
    have h1 : g * Nat.gcdA g.toNat n.natAbs = 1 - n * Nat.gcdB g.toNat n.natAbs := by
      push_cast at hb
      linarith
    rw [h1, sub_eq_add_neg, ← mul_neg, Int.add_mul_emod_self_left]
    exact Int.emod_eq_of_lt (by omega) hn

/-- When a non-negative `g` has a common factor with the modulus,
`ModInverse` leaves its receiver as it was. -/
theorem bigModInverse_not_coprime (z g n : Int) (hg : 0 ≤ g)
    (hco : Nat.gcd g.toNat n.natAbs ≠ 1) :
    bigModInverse z g n = some z := by
  have hng : ¬ g < 0 := not_lt.mpr hg
  simp [bigModInverse, hng, xgcdAux_gcd, hco]

/-! ## Verification and recovery -/

theorem bigModInverse_zero (n : Int) : bigModInverse 0 0 n = some 0 := by
  simp [bigModInverse, xgcdAux]

/-- When both scalar multiplications give points with the same x-coordinate
the difference has no inverse; the chord addition goes on with slope 0 and
returns a boolean and no error. -/
theorem verifyTail_same_x (P Q r x y1 y2 : Int) (hP : P ≠ 0) (hQ : Q ≠ 0) :
    verifyTail P Q r x y1 x y2 = some (decide ((0 - x - x) % P % Q = r), none) := by
  have h0 : (0 : Int) % P = 0 := Int.zero_emod P
  have hnn : ¬ ((-x - x) % P < 0) := not_lt.mpr (Int.emod_nonneg _ hP)
  simp [verifyTail, bigModInverse_zero, bigMod, hP, hQ, h0, hnn]

/-- Claim C9, as the code behaves.  For a signature of the right length with
`0 < r < Q` and `0 < s < Q` such that `ModSqrt` yields no root of
`r³ + A·r + B mod P`, `Ecrecover` calls `Cmp` on the `nil` pointer: it panics
instead of returning `(nil, nil, err)`. -/
theorem Ecrecover_nil_root_panics (ModSqrt : Int → Int → Option Int) (pub : PublicKey)
    (digest signature : List Byte)
    (hlen : signature.length = 2 * pub.C.PointSize)
    (hr0 : 0 < bytes2big (signature.drop pub.C.PointSize))
    (hr1 : bytes2big (signature.drop pub.C.PointSize) < pub.C.Q)
    (hs0 : 0 < bytes2big (signature.take pub.C.PointSize))
    (hs1 : bytes2big (signature.take pub.C.PointSize) < pub.C.Q)
    (hroot : ModSqrt ((bytes2big (signature.drop pub.C.PointSize)
        * bytes2big (signature.drop pub.C.PointSize)
        * bytes2big (signature.drop pub.C.PointSize)
        + pub.C.A * bytes2big (signature.drop pub.C.PointSize) + pub.C.B) % pub.C.P) pub.C.P
      = none) :
    pub.Ecrecover ModSqrt digest signature = none := by
  have hQ : pub.C.Q ≠ 0 := by omega
  have hc : ¬ (bytes2big (signature.drop pub.C.PointSize) ≤ 0
      ∨ bytes2big (signature.drop pub.C.PointSize) ≥ pub.C.Q
      ∨ bytes2big (signature.take pub.C.PointSize) ≤ 0
      ∨ bytes2big (signature.take pub.C.PointSize) ≥ pub.C.Q) := by
    omega
  unfold PublicKey.Ecrecover
  simp only [hlen, ne_eq, not_true_eq_false, if_false, hc, bigMod, hQ, Option.some_bind]
  by_cases hP : pub.C.P = 0
  · simp [hP]
  · simp only [hP, if_false, Option.some_bind, hroot]

theorem recoverTail_returns (pub : PublicKey) (r s z y0 : Int)
    (x y : Option Int) (err : Option String)
    (h : recoverTail pub r s z y0 = some (x, y, err)) :
    (err = none ∧ x = some pub.X ∧ y = some pub.Y) ∨ (x = none ∧ y = none ∧ err ≠ none) := by
  unfold recoverTail at h
  dsimp only at h
  simp only [Option.bind_eq_some] at h
  obtain ⟨w, -, u1, -, u2, -, h⟩ := h
  split at h
  · simp at h
    obtain ⟨rfl, rfl, rfl⟩ := h
    simp
  · split at h
    · simp at h
      obtain ⟨rfl, rfl, rfl⟩ := h
      simp
    · split at h
      · simp at h
        obtain ⟨⟨rfl, rfl, rfl⟩⟩ := h
        left
        simp_all
      · split at h
        · simp at h
          obtain ⟨rfl, rfl, rfl⟩ := h
          simp
        · split at h
          · simp at h
            left
            simp_all
          · simp at h
            obtain ⟨rfl, rfl, rfl⟩ := h
            simp

/-- Whenever `Ecrecover` returns, it returns either the known key and no
error, or `(nil, nil, err)`. -/
theorem Ecrecover_returns_known_key_or_error (ModSqrt : Int → Int → Option Int)
    (pub : PublicKey) (digest signature : List Byte)
    (x y : Option Int) (err : Option String)
    (h : pub.Ecrecover ModSqrt digest signature = some (x, y, err)) :
    (err = none ∧ x = some pub.X ∧ y = some pub.Y) ∨ (x = none ∧ y = none ∧ err ≠ none) := by
  unfold PublicKey.Ecrecover at h
  dsimp only at h
  split at h
  · simp at h
    obtain ⟨rfl, rfl, rfl⟩ := h
    simp
  · split at h
    · simp at h
      obtain ⟨rfl, rfl, rfl⟩ := h
      simp
    · simp only [Option.bind_eq_some] at h
      obtain ⟨z, -, x3, -, h⟩ := h
      split at h
      · simp at h
      · split at h
        · simp at h
          obtain ⟨rfl, rfl, rfl⟩ := h
          simp
        · exact recoverTail_returns pub _ _ _ _ x y err h

/-- On the small curve `Exp` is scalar multiplication: it fails for the
scalar 0, and for every scalar `k` from 2 to 12 the point `k * G` is
`(k - 1) * G + G`; the 12 multiples of the base point all lie on the curve. -/
theorem toyCurve_Exp_scalar_multiplication :
    (toyCurve.Exp 0 toyCurve.X toyCurve.Y).toOption = none
    ∧ (toyCurve.Exp 1 toyCurve.X toyCurve.Y).toOption = some (toyCurve.X, toyCurve.Y)
    ∧ (∀ k ∈ List.range 11,
        (toyCurve.Exp ((k : Int) + 2) toyCurve.X toyCurve.Y).toOption
          = (toyCurve.Exp ((k : Int) + 1) toyCurve.X toyCurve.Y).toOption.map
              fun p => toyCurve.Add p.1 p.2 toyCurve.X toyCurve.Y)
    ∧ (∀ k ∈ List.range 12,
        ∃ p, (toyCurve.Exp ((k : Int) + 1) toyCurve.X toyCurve.Y).toOption = some p
          ∧ (p.2 * p.2) % toyCurve.P
            = (p.1 * p.1 * p.1 + toyCurve.A * p.1 + toyCurve.B) % toyCurve.P) := by
  decide

/-- Claim C1, at the input where the code fails.  On the small curve, for the
private scalar `d = 2` (public key `2 * G = (5, 2)`), the digest `0x02`
(`e = 2`) and the nonce `k = 10`, the signer gives `r = (10 * G).x mod Q = 8`
and `s = (r * d + k * e) mod Q = 10`.  In `VerifyDigest` the scalars are
`z1 = 5` and `z2 = 9`, and `z1 * G` and `z2 * Pub` are the same point
`(3, 6)`: the inlined chord addition has no slope for it, and the signature
is rejected with `(false, nil)`. -/
theorem VerifyDigest_rejects_signer_output :
    (toyCurve.Exp 2 toyCurve.X toyCurve.Y).toOption = some (toyPub.X, toyPub.Y)
    ∧ (toyCurve.Exp 10 toyCurve.X toyCurve.Y).toOption = some (8, 8)
    ∧ bytes2big [2] % toyCurve.Q = 2
    ∧ (8 : Int) % toyCurve.Q = 8
    ∧ ((8 : Int) * 2 + 10 * 2) % toyCurve.Q = 10
    ∧ (toyCurve.Exp 5 toyCurve.X toyCurve.Y).toOption = some (3, 6)
    ∧ (toyCurve.Exp 9 toyPub.X toyPub.Y).toOption = some (3, 6)
    ∧ toyPub.VerifyDigest [2] (toySignature 10 8) = some (false, none) := by
  decide

/-- Claim C8, at the input where the code fails.  On the small curve, for the
key `(5, 2)`, the digest `0x02` and the signature `s = 10`, `r = 5`, the
scalars are `z1 = 5` and `z2 = 4`; `z1 * G = (3, 6)` and `z2 * Pub = (3, 5)`
have the same x-coordinate, so the difference 0 has no inverse modulo `P` and
`ModInverse` leaves its receiver as it was.  `VerifyDigest` returns
`(true, nil)`: no error, although no nonce `k` makes the signer of the key
`d = 2` produce this pair `(r, s) = (5, 10)`. -/
theorem VerifyDigest_silent_without_inverse :
    (toyCurve.Exp 5 toyCurve.X toyCurve.Y).toOption = some (3, 6)
    ∧ (toyCurve.Exp 4 toyPub.X toyPub.Y).toOption = some (3, 5)
    ∧ (∀ x ∈ List.range 11, ((3 - 3 : Int) * x) % toyCurve.P ≠ 1)
    ∧ bigModInverse (3 - 3) (3 - 3) toyCurve.P = some (3 - 3)
    ∧ (∀ k ∈ List.range 12,
        ¬ ((toyCurve.Exp ((k : Int) + 1) toyCurve.X toyCurve.Y).toOption.map
              (fun p => p.1 % toyCurve.Q) = some 5
            ∧ ((5 : Int) * 2 + ((k : Int) + 1) * 2) % toyCurve.Q = 10))
    ∧ toyPub.VerifyDigest [2] (toySignature 10 5) = some (true, none) := by
  decide

/-- Claim C10, at the input where the code fails.  On the small curve, for
`r = 4` the value `r³ + A·r + B mod P = 8` has no square root: `Ecrecover`
panics, so it neither returns the known key without error nor returns
`(nil, nil, err)`. -/
theorem Ecrecover_neither_key_nor_error :
    ¬ (toyPub.Ecrecover modSqrt3Mod4 [2] (toySignature 3 4)
          = some (some toyPub.X, some toyPub.Y, none)
        ∨ ∃ msg, toyPub.Ecrecover modSqrt3Mod4 [2] (toySignature 3 4)
          = some (none, none, some msg)) := by
  have h : toyPub.Ecrecover modSqrt3Mod4 [2] (toySignature 3 4) = none := by decide
  rw [h]
  simp

/-- Witness of C9: `r = 1` on the small curve, where `r³ + A·r + B mod P = 8`
is not a square modulo 11. -/
theorem Ecrecover_nil_root_panics_witness :
    toyPub.Ecrecover modSqrt3Mod4 [1] (toySignature 1 1) = none :=
  Ecrecover_nil_root_panics modSqrt3Mod4 toyPub [1] (toySignature 1 1)
    (by decide) (by decide) (by decide) (by decide) (by decide) (by decide)

/-! ## Recovery: range errors, the zero root, the second candidate -/

/-- Claim C11.  For a signature of the right length, `Ecrecover` and
`VerifyDigest` decode the same pair: both go on with `r` read from
`signature[PointSize:]` and `s` from `signature[:PointSize]`.  When that `r`
or that `s` is 0 or at least `Q`, `Ecrecover` returns `(nil, nil, err)` with a
non-nil error, while `VerifyDigest` returns `(false, nil)` on the same
input. -/
theorem Ecrecover_out_of_range (ModSqrt : Int → Int → Option Int) (pub : PublicKey)
    (digest signature : List Byte)
    (hlen : signature.length = 2 * pub.C.PointSize) :
    decodeSignature pub.C.PointSize signature
        = (bytes2big (signature.drop pub.C.PointSize), bytes2big (signature.take pub.C.PointSize))
    ∧ pub.Ecrecover ModSqrt digest signature
        = recoverDecoded ModSqrt pub digest (decodeSignature pub.C.PointSize signature).1
            (decodeSignature pub.C.PointSize signature).2
    ∧ pub.VerifyDigest digest signature
        = verifyDecoded pub digest (decodeSignature pub.C.PointSize signature).1
            (decodeSignature pub.C.PointSize signature).2
    ∧ (((decodeSignature pub.C.PointSize signature).1 = 0
          ∨ pub.C.Q ≤ (decodeSignature pub.C.PointSize signature).1)
        ∨ ((decodeSignature pub.C.PointSize signature).2 = 0
          ∨ pub.C.Q ≤ (decodeSignature pub.C.PointSize signature).2) →
        pub.Ecrecover ModSqrt digest signature = some (none, none, some "error at r")
        ∧ pub.VerifyDigest digest signature = some (false, none)) := by
  refine ⟨rfl, ?_, ?_, ?_⟩
  · simp only [PublicKey.Ecrecover, recoverDecoded, decodeSignature, hlen, ne_eq,
      not_true_eq_false, if_false]
  · simp only [PublicKey.VerifyDigest, verifyDecoded, decodeSignature, hlen, ne_eq,
      not_true_eq_false, if_false]
  · intro hrs
    simp only [decodeSignature] at hrs
    have hc : bytes2big (signature.drop pub.C.PointSize) ≤ 0
        ∨ bytes2big (signature.drop pub.C.PointSize) ≥ pub.C.Q
        ∨ bytes2big (signature.take pub.C.PointSize) ≤ 0
        ∨ bytes2big (signature.take pub.C.PointSize) ≥ pub.C.Q := by
      rcases hrs with (h | h) | (h | h)
      · exact Or.inl (le_of_eq h)
      · exact Or.inr (Or.inl h)
      · exact Or.inr (Or.inr (Or.inl (le_of_eq h)))
      · exact Or.inr (Or.inr (Or.inr h))
    constructor
    · simp only [PublicKey.Ecrecover, hlen, ne_eq, not_true_eq_false, if_false, hc, if_true]
    · simp only [PublicKey.VerifyDigest, hlen, ne_eq, not_true_eq_false, if_false, hc, if_true]

/-- Witness of C11: `s = 0` and `r = 5` on the small curve. -/
theorem Ecrecover_out_of_range_witness :
    decodeSignature toyPub.C.PointSize (toySignature 0 5) = (5, 0)
    ∧ toyPub.Ecrecover modSqrt3Mod4 [3] (toySignature 0 5)
        = recoverDecoded modSqrt3Mod4 toyPub [3] 5 0
    ∧ toyPub.VerifyDigest [3] (toySignature 0 5) = verifyDecoded toyPub [3] 5 0
    ∧ toyPub.Ecrecover modSqrt3Mod4 [3] (toySignature 0 5) = some (none, none, some "error at r")
    ∧ toyPub.VerifyDigest [3] (toySignature 0 5) = some (false, none) :=
  ⟨by decide,
    (Ecrecover_out_of_range modSqrt3Mod4 toyPub [3] (toySignature 0 5) (by decide)).2.1,
    (Ecrecover_out_of_range modSqrt3Mod4 toyPub [3] (toySignature 0 5) (by decide)).2.2.1,
    ((Ecrecover_out_of_range modSqrt3Mod4 toyPub [3] (toySignature 0 5) (by decide)).2.2.2
      (by decide)).1,
    ((Ecrecover_out_of_range modSqrt3Mod4 toyPub [3] (toySignature 0 5) (by decide)).2.2.2
      (by decide)).2⟩


/-- The zero root.  For a signature of the right length with `0 < r < Q` and
`0 < s < Q` such that `r³ + A·r + B` is 0 modulo `P` (`P` not 0) and the
square root of 0 is 0, `Ecrecover` returns `(nil, nil, err)` at the
square-root step; the result is the same whatever `Exp` and `Add` do, so
neither candidate is computed. -/
theorem Ecrecover_zero_root (ModSqrt : Int → Int → Option Int) (pub : PublicKey)
    (digest signature : List Byte)
    (hlen : signature.length = 2 * pub.C.PointSize)
    (hr0 : 0 < bytes2big (signature.drop pub.C.PointSize))
    (hr1 : bytes2big (signature.drop pub.C.PointSize) < pub.C.Q)
    (hs0 : 0 < bytes2big (signature.take pub.C.PointSize))
    (hs1 : bytes2big (signature.take pub.C.PointSize) < pub.C.Q)
    (hP : pub.C.P ≠ 0)
    (hzero : (bytes2big (signature.drop pub.C.PointSize)
        * bytes2big (signature.drop pub.C.PointSize)
        * bytes2big (signature.drop pub.C.PointSize)
        + pub.C.A * bytes2big (signature.drop pub.C.PointSize) + pub.C.B) % pub.C.P = 0)
    (hsqrt : ModSqrt 0 pub.C.P = some 0) :
    pub.Ecrecover ModSqrt digest signature
        = some (none, none, some "error at computing y0")
    ∧ ∀ f g, (pub.withOps f g).Ecrecover ModSqrt digest signature
        = some (none, none, some "error at computing y0") := by
  have hQ : pub.C.Q ≠ 0 := by omega
  have hc : ¬ (bytes2big (signature.drop pub.C.PointSize) ≤ 0
      ∨ bytes2big (signature.drop pub.C.PointSize) ≥ pub.C.Q
      ∨ bytes2big (signature.take pub.C.PointSize) ≤ 0
      ∨ bytes2big (signature.take pub.C.PointSize) ≥ pub.C.Q) := by
    omega
  constructor
  · unfold PublicKey.Ecrecover
    simp only [hlen, ne_eq, not_true_eq_false, if_false, hc, bigMod, hQ, hP, Option.some_bind,
      hzero, hsqrt, if_true]
  · intro f g
    unfold PublicKey.Ecrecover
    simp only [PublicKey.withOps, hlen, ne_eq, not_true_eq_false, if_false, hc, bigMod, hQ, hP,
      Option.some_bind, hzero, hsqrt, if_true]

/-- An instance of the zero root: `r = 2` on the second small curve, where
`r³ + A·r + B = 19` is 0 modulo `P = 19`. -/
theorem Ecrecover_zero_root_witness :
    toyPub2.Ecrecover modSqrt3Mod4 [1] (toySignature 3 2)
        = some (none, none, some "error at computing y0")
    ∧ ∀ f g, (toyPub2.withOps f g).Ecrecover modSqrt3Mod4 [1] (toySignature 3 2)
        = some (none, none, some "error at computing y0") :=
  Ecrecover_zero_root modSqrt3Mod4 toyPub2 [1] (toySignature 3 2)
    (by decide) (by decide) (by decide) (by decide) (by decide) (by decide) (by decide)
    (by decide)

/-- Claim C17, at the input where the code fails.  On the small curve, for the
key `(5, 2)` (`d = 2`), the digest `0x01` and the signature `r = 10`,
`s = 11` of the nonce `k = 4`: `y0 = 9`, `y1 = P - y0 = 2`, `u1 = 5`,
`u2 = 9`.  Candidate A is `(3, 5)`, not the key.  Candidate B as the claim
states it, `Add(Exp(u1, G), Exp(u2, r, y1))`, is the key `(5, 2)`.  The code
calls `Exp(r, y1, u2)`, the scalar `r` times the pair `(y1, u2) = (2, 9)`,
gets `(2, 2)`, adds it to `u1 * G` and fails with the cannot-recover error,
although `VerifyDigest` accepts the signature. -/
theorem Ecrecover_second_candidate_arguments :
    modSqrt3Mod4 (((10 : Int) * 10 * 10 + toyCurve.A * 10 + toyCurve.B) % toyCurve.P) toyCurve.P
      = some 9
    ∧ bigModInverse 0 10 toyCurve.Q = some 4
    ∧ ((11 : Int) * 4) % toyCurve.Q = 5
    ∧ (-(digestScalar [1] toyCurve.Q * 4)) % toyCurve.Q = 9
    ∧ (toyCurve.Exp 5 toyCurve.X toyCurve.Y).toOption = some (3, 6)
    ∧ (toyCurve.Exp 9 10 9).toOption = some (8, 3)
    ∧ toyCurve.Add 3 6 8 3 = (3, 5)
    ∧ (toyCurve.Exp 9 10 (toyCurve.P - 9)).toOption = some (8, 8)
    ∧ toyCurve.Add 3 6 8 8 = (toyPub.X, toyPub.Y)
    ∧ (toyCurve.Exp 10 (toyCurve.P - 9) 9).toOption = some (2, 2)
    ∧ toyCurve.Add 3 6 2 2 = (0, 6)
    ∧ toyPub.VerifyDigest [1] (toySignature 11 10) = some (true, none)
    ∧ toyPub.Ecrecover modSqrt3Mod4 [1] (toySignature 11 10)
        = some (none, none, some "cant recover public key") := by
  decide



/-! ## Equality of public keys -/

theorem Curve.Equal_iff (a b : Curve) :
    a.Equal b = true
      ↔ a.P = b.P ∧ a.A = b.A ∧ a.B = b.B ∧ a.Q = b.Q ∧ a.X = b.X ∧ a.Y = b.Y := by
  simp [Curve.Equal, and_assoc]

/-- Claim C12.  `a.Equal(b)` is true exactly when the coordinates are equal
and `Curve.Equal` holds of the two curves, that is when `P`, `A`, `B`, `Q` and
the base point are equal, whatever the other fields of the two curve values
are; `Equal` is reflexive and symmetric on public keys, and false for an
argument that is not a `*PublicKey`. -/
theorem PublicKey_Equal_iff (a b : PublicKey) :
    (a.Equal (.gost b) = true ↔ a.X = b.X ∧ a.Y = b.Y ∧ a.C.Equal b.C = true)
    ∧ (a.C.Equal b.C = true
        ↔ a.C.P = b.C.P ∧ a.C.A = b.C.A ∧ a.C.B = b.C.B ∧ a.C.Q = b.C.Q
          ∧ a.C.X = b.C.X ∧ a.C.Y = b.C.Y)
    ∧ (∀ f g, a.Equal (.gost (a.withOps f g)) = true)
    ∧ a.Equal (.gost a) = true
    ∧ a.Equal (.gost b) = b.Equal (.gost a)
    ∧ ∀ tag, a.Equal (.other tag) = false := by
  refine ⟨?_, Curve.Equal_iff a.C b.C, ?_, ?_, ?_, fun _ => rfl⟩
  · simp [PublicKey.Equal, and_assoc]
  · intro f g
    simp [PublicKey.Equal, PublicKey.withOps, Curve.Equal]
  · simp [PublicKey.Equal, Curve.Equal]
  · have h : ∀ x y : PublicKey, x.Equal (.gost y) = true → y.Equal (.gost x) = true := by
      intro x y hxy
      simp only [PublicKey.Equal, Curve.Equal, Bool.and_eq_true, decide_eq_true_eq] at hxy ⊢
      obtain ⟨⟨h1, h2⟩, ⟨⟨⟨⟨h3, h4⟩, h5⟩, h6⟩, h7⟩, h8⟩ := hxy
      exact ⟨⟨h1.symm, h2.symm⟩, ⟨⟨⟨⟨h3.symm, h4.symm⟩, h5.symm⟩, h6.symm⟩, h7.symm⟩, h8.symm⟩
    cases hab : a.Equal (.gost b) with
    | true => exact (h a b hab).symm
    | false =>
      cases hba : b.Equal (.gost a) with
      | true => rw [h b a hba] at hab; exact hab.symm
      | false => rfl

/-! ## The digest enters verification through `e` only -/

theorem VerifyDigest_eq_of_bigMod (pub : PublicKey) (d1 d2 signature : List Byte)
    (h : (bigMod (bytes2big d1) pub.C.Q).map (fun e => if e = 0 then 1 else e)
      = (bigMod (bytes2big d2) pub.C.Q).map (fun e => if e = 0 then 1 else e)) :
    pub.VerifyDigest d1 signature = pub.VerifyDigest d2 signature := by
  unfold PublicKey.VerifyDigest
  dsimp only
  split
  · rfl
  · split
    · rfl
    · cases h1 : bigMod (bytes2big d1) pub.C.Q <;> cases h2 : bigMod (bytes2big d2) pub.C.Q
        <;> simp [h1, h2] at h ⊢
      rw [h]

/-- Claim C18.  Two digests whose values are congruent modulo `Q` give the
same result of `VerifyDigest`, and a digest whose value is a multiple of `Q`
(the empty digest, an all-zero digest) gives the same result as the one-byte
digest `0x01`. -/
theorem VerifyDigest_digest_mod_Q (pub : PublicKey) (signature : List Byte) :
    (∀ d1 d2 : List Byte, bytes2big d1 % pub.C.Q = bytes2big d2 % pub.C.Q →
        pub.VerifyDigest d1 signature = pub.VerifyDigest d2 signature)
    ∧ (∀ d : List Byte, bytes2big d % pub.C.Q = 0 →
        pub.VerifyDigest d signature = pub.VerifyDigest [1] signature)
    ∧ pub.VerifyDigest [] signature = pub.VerifyDigest [1] signature
    ∧ ∀ k, pub.VerifyDigest (List.replicate k 0) signature = pub.VerifyDigest [1] signature := by
  have hmul : ∀ d : List Byte, bytes2big d % pub.C.Q = 0 →
      pub.VerifyDigest d signature = pub.VerifyDigest [1] signature := by
    intro d hd
    by_cases hq : pub.C.Q ≤ 1
    · unfold PublicKey.VerifyDigest
      dsimp only
      split
      · rfl
      · have hc : bytes2big (signature.drop pub.C.PointSize) ≤ 0
            ∨ bytes2big (signature.drop pub.C.PointSize) ≥ pub.C.Q
            ∨ bytes2big (signature.take pub.C.PointSize) ≤ 0
            ∨ bytes2big (signature.take pub.C.PointSize) ≥ pub.C.Q := by
          omega
        simp only [hc, if_true]
    · apply VerifyDigest_eq_of_bigMod
      have hQ : pub.C.Q ≠ 0 := by omega
      have h1 : bytes2big [1] = 1 := by decide
      have h2 : (1 : Int) % pub.C.Q = 1 := Int.emod_eq_of_lt (by omega) (by omega)
      simp [bigMod, hQ, hd, h1, h2]
  have hz : ∀ k, bytes2big (List.replicate k (0 : Byte)) = 0 := by
    intro k
    rw [bytes2big_eq, List.reverse_replicate, littleEndian_replicate_zero]
    rfl
  refine ⟨?_, hmul, hmul [] (by simp [bytes2big]), fun k => hmul _ (by simp [hz])⟩
  intro d1 d2 h
  apply VerifyDigest_eq_of_bigMod
  simp [bigMod, h]


/-! ## The scalars of verification and the reference equation -/

theorem gcd_eq_one_of_inverse (g n w : Int) (hg : 0 ≤ g) (hw : g * w % n = 1) :
    Nat.gcd g.toNat n.natAbs = 1 := by
  have hco : IsCoprime g n := by
    refine ⟨w, -(g * w / n), ?_⟩
    have h := Int.emod_def (g * w) n
    rw [hw] at h
    linarith
  have h1 := Int.isCoprime_iff_gcd_eq_one.mp hco
  have h2 : g.natAbs = g.toNat := by
    have := Int.toNat_of_nonneg hg
    omega
  rw [Int.gcd, h2] at h1
  exact h1

theorem emod_eq_of_inverses (g n u w : Int) (hu : g * u % n = 1) (hw : g * w % n = 1) :
    u % n = w % n := by
  have h1 : (u * (g * w)) % n = u % n := by
    rw [Int.mul_emod, hw, mul_one, Int.emod_emod]
  have h2 : (w * (g * u)) % n = w % n := by
    rw [Int.mul_emod, hu, mul_one, Int.emod_emod]
  have h3 : u * (g * w) = w * (g * u) := by ring
  rw [← h1, ← h2, h3]

theorem bigModInverse_neg (z g n : Int) (hg : g < 0) (hn : 0 < n) :
    bigModInverse z g n = bigModInverse z (g % n) n := by
  have hn0 : (n.natAbs : Int) = n := Int.natAbs_of_nonneg (by omega)
  have hm : n.natAbs ≠ 0 := by omega
  have hnn : ¬ (g % n < 0) := not_lt.mpr (Int.emod_nonneg _ (by omega))
  simp [bigModInverse, hg, hm, hn0, hnn]

/-- Whenever `g` has an inverse `w` modulo `n > 1`, `ModInverse` sets its
receiver to the inverse in the range `0 ≤ u < n`, which is congruent
to `w`. -/
theorem bigModInverse_of_inverse (z g n w : Int) (hn : 1 < n) (hw : g * w % n = 1) :
    ∃ u, bigModInverse z g n = some u ∧ 0 ≤ u ∧ u < n ∧ g * u % n = 1 ∧ u % n = w % n := by
  by_cases hg : 0 ≤ g
  · obtain ⟨u, h1, h2, h3, h4⟩ :=
      bigModInverse_coprime z g n hg hn (gcd_eq_one_of_inverse g n w hg hw)
    exact ⟨u, h1, h2, h3, h4, emod_eq_of_inverses g n u w h4 hw⟩
  · have hg2 : g < 0 := by omega
    have hw2 : g % n * w % n = 1 := by
      rw [Int.mul_emod, Int.emod_emod, ← Int.mul_emod]
      exact hw
    have hnn : 0 ≤ g % n := Int.emod_nonneg _ (by omega)
    obtain ⟨u, h1, h2, h3, h4⟩ :=
      bigModInverse_coprime z (g % n) n hnn hn (gcd_eq_one_of_inverse (g % n) n w hnn hw2)
    have h5 : g * u % n = 1 := by
      rw [Int.mul_emod, Int.emod_emod, ← Int.mul_emod] at h4
      exact h4
    refine ⟨u, ?_, h2, h3, h5, emod_eq_of_inverses g n u w h5 hw⟩
    rw [bigModInverse_neg z g n hg2 (by omega)]
    exact h1

/-- Modulo a prime every number that is not a multiple of it has an
inverse. -/
theorem exists_inverse_of_prime (g n : Int) (hn : Nat.Prime n.toNat) (hg : g % n ≠ 0) :
    ∃ w, 0 ≤ w ∧ w < n ∧ g * w % n = 1 := by
  have hn2 : 2 ≤ n.toNat := hn.two_le
  have hn1 : 1 < n := by omega
  have hnn : 0 ≤ g % n := Int.emod_nonneg _ (by omega)
  have hlt : g % n < n := Int.emod_lt_of_pos _ (by omega)
  have hnat : n.natAbs = n.toNat := by omega
  have hco : Nat.gcd (g % n).toNat n.natAbs = 1 := by
    rw [hnat]
    have hnd : ¬ n.toNat ∣ (g % n).toNat := by
      intro hd
      have hpos : 0 < (g % n).toNat := by omega
      have := Nat.le_of_dvd hpos hd
      omega
    exact Nat.Coprime.symm ((Nat.Prime.coprime_iff_not_dvd hn).mpr hnd)
  obtain ⟨u, -, h2, h3, h4⟩ := bigModInverse_coprime 0 (g % n) n hnn hn1 hco
  refine ⟨u, h2, h3, ?_⟩
  rw [Int.mul_emod, Int.emod_emod, ← Int.mul_emod] at h4
  exact h4


theorem digestScalar_bounds (digest : List Byte) (Q : Int) (hQ : 1 < Q) :
    0 < digestScalar digest Q ∧ digestScalar digest Q < Q := by
  have h0 : 0 ≤ bytes2big digest % Q := Int.emod_nonneg _ (by omega)
  have h1 : bytes2big digest % Q < Q := Int.emod_lt_of_pos _ (by omega)
  unfold digestScalar
  split <;> omega

theorem VerifyDigest_eq_verifyExp (pub : PublicKey) (digest signature : List Byte)
    (hlen : signature.length = 2 * pub.C.PointSize)
    (hr0 : 0 < bytes2big (signature.drop pub.C.PointSize))
    (hr1 : bytes2big (signature.drop pub.C.PointSize) < pub.C.Q)
    (hs0 : 0 < bytes2big (signature.take pub.C.PointSize))
    (hs1 : bytes2big (signature.take pub.C.PointSize) < pub.C.Q)
    (v : Int) (hv : bigModInverse 0 (digestScalar digest pub.C.Q) pub.C.Q = some v) :
    pub.VerifyDigest digest signature
      = verifyExp pub (bytes2big (signature.drop pub.C.PointSize))
          (bytes2big (signature.take pub.C.PointSize) * v % pub.C.Q)
          (pub.C.Q - bytes2big (signature.drop pub.C.PointSize) * v % pub.C.Q) := by
  have hQ : pub.C.Q ≠ 0 := by omega
  have hc : ¬ (bytes2big (signature.drop pub.C.PointSize) ≤ 0
      ∨ bytes2big (signature.drop pub.C.PointSize) ≥ pub.C.Q
      ∨ bytes2big (signature.take pub.C.PointSize) ≤ 0
      ∨ bytes2big (signature.take pub.C.PointSize) ≥ pub.C.Q) := by
    omega
  unfold digestScalar at hv
  unfold PublicKey.VerifyDigest verifyExp
  simp only [hlen, ne_eq, not_true_eq_false, if_false, hc, bigMod, hQ, Option.some_bind, hv]

theorem mul_emod_ne_zero (a b q : Int) (hq : Nat.Prime q.toNat)
    (ha0 : 0 < a) (ha1 : a < q) (hb0 : 0 < b) (hb1 : b < q) : a * b % q ≠ 0 := by
  intro h
  have hd : q ∣ a * b := Int.dvd_of_emod_eq_zero h
  have hd2 : q.natAbs ∣ (a * b).natAbs := Int.natAbs_dvd_natAbs.mpr hd
  rw [Int.natAbs_mul] at hd2
  have hqn : q.natAbs = q.toNat := by omega
  rw [hqn] at hd2
  rcases (Nat.Prime.dvd_mul hq).mp hd2 with h1 | h1
  · have := Nat.le_of_dvd (by omega) h1
    omega
  · have := Nat.le_of_dvd (by omega) h1
    omega

/-- Claim C19.  On a curve with `Q` prime, for a signature of the right
length with `0 < r < Q` and `0 < s < Q`: the inverse `v` of `e` modulo `Q`
exists (`ModInverse` finds it), the scalars `z1 = (s·v) mod Q` and
`z2 = Q - ((r·v) mod Q)` lie strictly between 0 and `Q`, they are the scalars
`VerifyDigest` hands to `Exp`, and changing `Exp` outside the scalars
strictly between 0 and `Q` does not change the result. -/
theorem VerifyDigest_scalars_in_range (pub : PublicKey) (digest signature : List Byte)
    (hQ : Nat.Prime pub.C.Q.toNat)
    (hlen : signature.length = 2 * pub.C.PointSize)
    (hr0 : 0 < bytes2big (signature.drop pub.C.PointSize))
    (hr1 : bytes2big (signature.drop pub.C.PointSize) < pub.C.Q)
    (hs0 : 0 < bytes2big (signature.take pub.C.PointSize))
    (hs1 : bytes2big (signature.take pub.C.PointSize) < pub.C.Q) :
    ∃ v z1 z2 : Int,
      bigModInverse 0 (digestScalar digest pub.C.Q) pub.C.Q = some v
      ∧ 0 < v ∧ v < pub.C.Q ∧ digestScalar digest pub.C.Q * v % pub.C.Q = 1
      ∧ z1 = bytes2big (signature.take pub.C.PointSize) * v % pub.C.Q
      ∧ z2 = pub.C.Q - bytes2big (signature.drop pub.C.PointSize) * v % pub.C.Q
      ∧ 0 < z1 ∧ z1 < pub.C.Q ∧ 0 < z2 ∧ z2 < pub.C.Q
      ∧ pub.VerifyDigest digest signature
          = verifyExp pub (bytes2big (signature.drop pub.C.PointSize)) z1 z2
      ∧ ∀ f, (∀ k x y, 0 < k → k < pub.C.Q → f k x y = pub.C.Exp k x y) →
          (pub.withExp f).VerifyDigest digest signature = pub.VerifyDigest digest signature := by
  have hQ1 : 1 < pub.C.Q := by omega
  obtain ⟨he0, he1⟩ := digestScalar_bounds digest pub.C.Q hQ1
  have hemod : digestScalar digest pub.C.Q % pub.C.Q ≠ 0 := by
    rw [Int.emod_eq_of_lt (by omega) he1]
    omega
  obtain ⟨w, -, -, hw⟩ := exists_inverse_of_prime _ _ hQ hemod
  obtain ⟨v, hv, hv0, hv1, hv2, -⟩ :=
    bigModInverse_of_inverse 0 (digestScalar digest pub.C.Q) pub.C.Q w hQ1 hw
  have hvpos : 0 < v := by
    rcases eq_or_lt_of_le hv0 with h | h
    · rw [← h] at hv2
      simp at hv2
    · exact h
  have hz1 := mul_emod_ne_zero _ _ _ hQ hs0 hs1 hvpos hv1
  have hz2 := mul_emod_ne_zero _ _ _ hQ hr0 hr1 hvpos hv1
  have hz1a := Int.emod_nonneg (bytes2big (signature.take pub.C.PointSize) * v)
    (show pub.C.Q ≠ 0 by omega)
  have hz1b := Int.emod_lt_of_pos (bytes2big (signature.take pub.C.PointSize) * v)
    (show 0 < pub.C.Q by omega)
  have hz2a := Int.emod_nonneg (bytes2big (signature.drop pub.C.PointSize) * v)
    (show pub.C.Q ≠ 0 by omega)
  have hz2b := Int.emod_lt_of_pos (bytes2big (signature.drop pub.C.PointSize) * v)
    (show 0 < pub.C.Q by omega)
  have hmain := VerifyDigest_eq_verifyExp pub digest signature hlen hr0 hr1 hs0 hs1 v hv
  refine ⟨v, _, _, hv, hvpos, hv1, hv2, rfl, rfl, by omega, hz1b, by omega, by omega, hmain, ?_⟩
  intro f hf
  have hmain2 := VerifyDigest_eq_verifyExp (pub.withExp f) digest signature hlen hr0 hr1 hs0 hs1
    v hv
  rw [hmain, hmain2]
  have e1 := hf (bytes2big (signature.take pub.C.PointSize) * v % pub.C.Q) pub.C.X pub.C.Y
    (by omega) hz1b
  have e2 := hf (pub.C.Q - bytes2big (signature.drop pub.C.PointSize) * v % pub.C.Q)
    pub.X pub.Y (by omega) (by omega)
  simp only [verifyExp, PublicKey.withExp, e1, e2]

/-- Witness of C19 on the small curve (`Q = 13`). -/
theorem VerifyDigest_scalars_in_range_witness :
    ∃ v z1 z2 : Int,
      bigModInverse 0 (digestScalar [1] toyPub.C.Q) toyPub.C.Q = some v
      ∧ 0 < v ∧ v < toyPub.C.Q ∧ digestScalar [1] toyPub.C.Q * v % toyPub.C.Q = 1
      ∧ z1 = bytes2big ((toySignature 11 10).take toyPub.C.PointSize) * v % toyPub.C.Q
      ∧ z2 = toyPub.C.Q
          - bytes2big ((toySignature 11 10).drop toyPub.C.PointSize) * v % toyPub.C.Q
      ∧ 0 < z1 ∧ z1 < toyPub.C.Q ∧ 0 < z2 ∧ z2 < toyPub.C.Q
      ∧ toyPub.VerifyDigest [1] (toySignature 11 10)
          = verifyExp toyPub (bytes2big ((toySignature 11 10).drop toyPub.C.PointSize)) z1 z2
      ∧ ∀ f, (∀ k x y, 0 < k → k < toyPub.C.Q → f k x y = toyPub.C.Exp k x y) →
          (toyPub.withExp f).VerifyDigest [1] (toySignature 11 10)
            = toyPub.VerifyDigest [1] (toySignature 11 10) :=
  VerifyDigest_scalars_in_range toyPub [1] (toySignature 11 10) (by decide)
    (by decide) (by decide) (by decide) (by decide) (by decide)


theorem verifyTail_eq_reference (P Q r x1 y1 x2 y2 w : Int) (hP : 1 < P) (hQ : Q ≠ 0)
    (hw : (x2 - x1) * w % P = 1) :
    verifyTail P Q r x1 y1 x2 y2
      = some (decide ((((y2 - y1) * w % P) ^ 2 - x1 - x2) % P % Q = r), none) := by
  have hP0 : P ≠ 0 := by omega
  have hw2 : (if x2 - x1 < 0 then x2 - x1 + P else x2 - x1) * w % P = 1 := by
    split
    · rw [add_mul, Int.add_mul_emod_self_left]
      exact hw
    · exact hw
  obtain ⟨u, hu, -, -, -, huw⟩ := bigModInverse_of_inverse
    (if x2 - x1 < 0 then x2 - x1 + P else x2 - x1)
    (if x2 - x1 < 0 then x2 - x1 + P else x2 - x1) P w hP hw2
  have hlam : u * (y2 - y1) % P = (y2 - y1) * w % P := by
    rw [Int.mul_emod, huw, ← Int.mul_emod, mul_comm]
  have hsq : ((y2 - y1) * w % P * ((y2 - y1) * w % P) % P - x1 - x2) % P
      = (((y2 - y1) * w % P) ^ 2 - x1 - x2) % P := by
    rw [pow_two, sub_sub, sub_sub, Int.sub_emod, Int.emod_emod, ← Int.sub_emod]
  have hnn : ¬ ((((y2 - y1) * w % P) ^ 2 - x1 - x2) % P < 0) :=
    not_lt.mpr (Int.emod_nonneg _ hP0)
  unfold verifyTail
  simp only [hu, Option.some_bind, bigMod, hP0, hQ, if_false, hlam, hsq, hnn]

/-- Claim C16.  On a curve with `P` prime, for a signature of the right length
with `0 < r < Q` and `0 < s < Q`, with `e` the digest modulo `Q` (0 replaced
by 1), `v` an inverse of `e` modulo `Q`, `z1 = (s·v) mod Q`,
`z2 = Q - ((r·v) mod Q)`, `(x1, y1) = Exp(z1, G)` and `(x2, y2) = Exp(z2, Pub)`
with `x1` and `x2` different modulo `P`: the difference `x2 - x1` has an
inverse modulo `P`, and with `lambda = (y2 - y1)·(x2 - x1)⁻¹ mod P` the result
is `(b, nil)` where `b` is true exactly when
`((lambda² - x1 - x2) mod P) mod Q = r`. -/
theorem VerifyDigest_eq_reference (pub : PublicKey) (digest signature : List Byte)
    (hP : Nat.Prime pub.C.P.toNat)
    (hlen : signature.length = 2 * pub.C.PointSize)
    (hr0 : 0 < bytes2big (signature.drop pub.C.PointSize))
    (hr1 : bytes2big (signature.drop pub.C.PointSize) < pub.C.Q)
    (hs0 : 0 < bytes2big (signature.take pub.C.PointSize))
    (hs1 : bytes2big (signature.take pub.C.PointSize) < pub.C.Q)
    (v : Int) (hv : digestScalar digest pub.C.Q * v % pub.C.Q = 1)
    (x1 y1 x2 y2 : Int)
    (hE1 : pub.C.Exp (bytes2big (signature.take pub.C.PointSize) * v % pub.C.Q)
      pub.C.X pub.C.Y = .ok (x1, y1))
    (hE2 : pub.C.Exp (pub.C.Q - bytes2big (signature.drop pub.C.PointSize) * v % pub.C.Q)
      pub.X pub.Y = .ok (x2, y2))
    (hx : x1 % pub.C.P ≠ x2 % pub.C.P) :
    (∃ w, 0 ≤ w ∧ w < pub.C.P ∧ (x2 - x1) * w % pub.C.P = 1)
    ∧ ∀ w, (x2 - x1) * w % pub.C.P = 1 →
        pub.VerifyDigest digest signature
          = some (decide ((((y2 - y1) * w % pub.C.P) ^ 2 - x1 - x2) % pub.C.P % pub.C.Q
              = bytes2big (signature.drop pub.C.PointSize)), none) := by
  have hP1 : 1 < pub.C.P := by
    have := hP.two_le
    omega
  have hQ1 : 1 < pub.C.Q := by omega
  have hdiff : (x2 - x1) % pub.C.P ≠ 0 := by
    intro h
    apply hx
    have h2 := Int.emod_emod_of_dvd x2 (dvd_refl pub.C.P)
    have h3 : x2 % pub.C.P = (x2 - x1 + x1) % pub.C.P := by rw [sub_add_cancel]
    rw [h3, Int.add_emod, h, zero_add, Int.emod_emod]
  refine ⟨exists_inverse_of_prime _ _ hP hdiff, ?_⟩
  intro w hw
  obtain ⟨u, hu, -, -, -, huv⟩ :=
    bigModInverse_of_inverse 0 (digestScalar digest pub.C.Q) pub.C.Q v hQ1 hv
  have hz1 : bytes2big (signature.take pub.C.PointSize) * u % pub.C.Q
      = bytes2big (signature.take pub.C.PointSize) * v % pub.C.Q := by
    rw [Int.mul_emod, huv, ← Int.mul_emod]
  have hz2 : bytes2big (signature.drop pub.C.PointSize) * u % pub.C.Q
      = bytes2big (signature.drop pub.C.PointSize) * v % pub.C.Q := by
    rw [Int.mul_emod, huv, ← Int.mul_emod]
  rw [VerifyDigest_eq_verifyExp pub digest signature hlen hr0 hr1 hs0 hs1 u hu, hz1, hz2]
  simp only [verifyExp, hE1, hE2]
  exact verifyTail_eq_reference _ _ _ _ _ _ _ w hP1 (by omega) hw

/-- Witness of C16 on the small curve: the digest `0x01` (`e = 1`, `v = 1`)
and the signature `s = 6`, `r = 8` of the key `(5, 2)`, with `z1 = 6`,
`z2 = 5`, `z1·G = (7, 9)` and `z2·Pub = (8, 8)`. -/
theorem VerifyDigest_eq_reference_witness :
    (∃ w, 0 ≤ w ∧ w < toyPub.C.P ∧ ((8 : Int) - 7) * w % toyPub.C.P = 1)
    ∧ ∀ w, ((8 : Int) - 7) * w % toyPub.C.P = 1 →
        toyPub.VerifyDigest [1] (toySignature 6 8)
          = some (decide (((((8 : Int) - 9) * w % toyPub.C.P) ^ 2 - 7 - 8) % toyPub.C.P
              % toyPub.C.Q = bytes2big ((toySignature 6 8).drop toyPub.C.PointSize)), none) :=
  VerifyDigest_eq_reference toyPub [1] (toySignature 6 8) (by decide)
    (by decide) (by decide) (by decide) (by decide) (by decide) 1 (by decide)
    7 9 8 8 rfl rfl (by decide)

end Gost3410

namespace Gost34112012

open Gost3410 (Byte littleEndian bytesLE)

/-! ## The streaming hash: chunking, `Sum`, serialization -/

theorem toBlock_val (l : List Byte) (hl : l.length = BlockSize) : (toBlock l).val = l := by
  simp [toBlock, List.take_append_of_le_length, hl]

theorem toBlock_block (b : Block) : toBlock b.val = b :=
  Subtype.ext (toBlock_val b.val b.property)

theorem absorb_fuel (E : Engine) (f1 : Nat) :
    ∀ (f2 : Nat) (h : Hash), h.buf.length ≤ f1 → h.buf.length ≤ f2 →
      absorb E f1 h = absorb E f2 h := by
  induction f1 with
  | zero =>
    intro f2 h h1 _
    cases f2 with
    | zero => rfl
    | succ g =>
      have : ¬ BlockSize ≤ h.buf.length := by
        simp only [BlockSize]
        omega
      simp [absorb, this]
  | succ f ih =>
    intro f2 h h1 h2
    by_cases hb : BlockSize ≤ h.buf.length
    · cases f2 with
      | zero =>
        simp only [BlockSize] at hb
        omega
      | succ g =>
        simp only [absorb, hb, if_true]
        have hl : (h.step E).buf.length = h.buf.length - BlockSize := by
          simp [Hash.step]
        simp only [BlockSize] at hb hl
        exact ih g (h.step E) (by omega) (by omega)
    · cases f2 with
      | zero => simp [absorb, hb]
      | succ g => simp [absorb, hb]

theorem step_append (E : Engine) (h : Hash) (b : List Byte) (hb : BlockSize ≤ h.buf.length) :
    (h.append b).step E = (h.step E).append b := by
  simp only [Hash.step, Hash.append]
  rw [List.take_append_of_le_length hb, List.drop_append_of_le_length hb]

theorem absorb_append (E : Engine) (fuel : Nat) :
    ∀ (h : Hash) (b : List Byte), h.buf.length ≤ fuel →
      absorb E (fuel + b.length) (h.append b)
        = absorb E ((absorb E fuel h).buf.length + b.length) ((absorb E fuel h).append b) := by
  induction fuel with
  | zero =>
    intro h b hl
    have h0 : h.buf.length = 0 := by omega
    simp only [absorb]
    rw [h0]
  | succ f ih =>
    intro h b hl
    by_cases hb : BlockSize ≤ h.buf.length
    · have hb2 : BlockSize ≤ (h.append b).buf.length := by
        simp only [Hash.append, List.length_append]
        omega
      have hf : f + 1 + b.length = (f + b.length) + 1 := by omega
      rw [hf]
      simp only [absorb, hb, hb2, if_true]
      rw [step_append E h b hb]
      have hl2 : (h.step E).buf.length = h.buf.length - BlockSize := by
        simp [Hash.step]
      simp only [BlockSize] at hb hl2
      exact ih (h.step E) b (by omega)
    · simp only [absorb, hb, if_false]
      apply absorb_fuel
      · simp only [Hash.append, List.length_append]
        omega
      · simp only [Hash.append, List.length_append]
        omega

theorem absorb_buf_lt (E : Engine) (fuel : Nat) :
    ∀ h : Hash, h.buf.length ≤ fuel → (absorb E fuel h).buf.length < BlockSize := by
  induction fuel with
  | zero =>
    intro h hl
    simp only [absorb, BlockSize]
    omega
  | succ f ih =>
    intro h hl
    by_cases hb : BlockSize ≤ h.buf.length
    · simp only [absorb, hb, if_true]
      have hl2 : (h.step E).buf.length = h.buf.length - BlockSize := by
        simp [Hash.step]
      simp only [BlockSize] at hb hl2
      exact ih (h.step E) (by omega)
    · simp only [absorb, hb, if_false]
      omega

theorem absorb_of_lt (E : Engine) (fuel : Nat) (h : Hash) (hb : h.buf.length < BlockSize) :
    absorb E fuel h = h := by
  cases fuel with
  | zero => rfl
  | succ f =>
    have : ¬ BlockSize ≤ h.buf.length := by omega
    simp [absorb, this]

theorem absorb_size_n (E : Engine) (fuel : Nat) :
    ∀ h : Hash, (absorb E fuel h).size = h.size
      ∧ (h.n < counterModulus → (absorb E fuel h).n < counterModulus) := by
  induction fuel with
  | zero =>
    intro h
    exact ⟨rfl, fun hn => hn⟩
  | succ f ih =>
    intro h
    by_cases hb : BlockSize ≤ h.buf.length
    · have e : absorb E (f + 1) h = absorb E f (h.step E) := by
        simp [absorb, hb]
      rw [e]
      obtain ⟨h1, h2⟩ := ih (h.step E)
      refine ⟨h1, fun _ => h2 ?_⟩
      exact Nat.mod_lt _ (by decide)
    · have e : absorb E (f + 1) h = h := by
        simp [absorb, hb]
      rw [e]
      exact ⟨rfl, fun hn => hn⟩

/-- Writing `a` and then `b` leaves the state that writing `a ++ b` leaves. -/
theorem Write_Write (E : Engine) (h : Hash) (a b : List Byte) :
    (h.Write E a).Write E b = h.Write E (a ++ b) := by
  have h1 := absorb_append E (h.buf.length + a.length) (h.append a) b
    (by simp [Hash.append])
  have h2 : (h.append a).append b = h.append (a ++ b) := by
    simp [Hash.append, List.append_assoc]
  have h3 : h.buf.length + a.length + b.length = h.buf.length + (a ++ b).length := by
    simp [List.length_append]
    omega
  rw [h2, h3] at h1
  simp only [Hash.Write]
  exact h1.symm

theorem Write_nil (E : Engine) (h : Hash) (hb : h.buf.length < BlockSize) :
    h.Write E [] = h := by
  have h1 : h.append [] = h := by
    simp [Hash.append]
  simp only [Hash.Write, h1]
  exact absorb_of_lt E _ h hb

theorem Write_chunks (E : Engine) (chunks : List (List Byte)) :
    ∀ h : Hash, h.buf.length < BlockSize →
      chunks.foldl (fun s c => s.Write E c) h = h.Write E chunks.flatten := by
  induction chunks with
  | nil =>
    intro h hb
    simp [Write_nil E h hb]
  | cons c t ih =>
    intro h hb
    have hlt : (h.Write E c).buf.length < BlockSize := by
      apply absorb_buf_lt
      simp [Hash.append]
    simp only [List.foldl_cons, List.flatten_cons]
    rw [ih (h.Write E c) hlt, Write_Write]

theorem counterBytes_length (n : Nat) (hn : n < counterModulus) :
    (counterBytes n).length = BlockSize := by
  have h := Gost3410.bytesLE_length_le 64 n hn
  simp only [counterBytes, List.length_append, List.length_replicate, BlockSize]
  omega

theorem littleEndian_counterBytes (n : Nat) : littleEndian (counterBytes n) = n := by
  simp [counterBytes, Gost3410.littleEndian_append, Gost3410.littleEndian_replicate_zero,
    Gost3410.littleEndian_bytesLE]

/-- Decoding the encoding of a state gives the state back, whatever the
receiver was. -/
theorem Unmarshal_Marshal (r h : Hash) (hsize : h.size = 32 ∨ h.size = 64)
    (hn : h.n < counterModulus) (hb : h.buf.length < BlockSize) :
    r.UnmarshalBinary h.MarshalBinary.1 = (h, none) := by
  have hH : h.hsh.val.length = BlockSize := h.hsh.property
  have hC : h.chk.val.length = BlockSize := h.chk.property
  have hN : (counterBytes h.n).length = BlockSize := counterBytes_length h.n hn
  have hsz : (Fin.ofNat h.size : Byte).val = h.size := by
    rcases hsize with e | e <;> rw [e] <;> rfl
  have hpl : (Fin.ofNat h.buf.length : Byte).val = h.buf.length := by
    simp only [BlockSize] at hb
    simp only [Fin.ofNat, Nat.succ_eq_add_one, Nat.reduceAdd]
    omega
  have hlen : ¬ (h.MarshalBinary.1.length < 2 + 3 * BlockSize) := by
    simp only [Hash.MarshalBinary, List.length_cons, List.length_append, hH, hC, hN, BlockSize]
    omega
  have hcheck : ¬ ((h.size ≠ 32 ∧ h.size ≠ 64) ∨ BlockSize ≤ h.buf.length
      ∨ h.buf.length ≠ h.buf.length) := by
    simp only [BlockSize] at hb ⊢
    omega
  unfold Hash.UnmarshalBinary
  rw [if_neg hlen]
  simp only [Hash.MarshalBinary, List.headD_cons, List.drop_succ_cons, List.drop_zero,
    List.take_left' hH, List.drop_left' hH, List.take_left' hN, List.drop_left' hN,
    List.take_left' hC, List.drop_left' hC, hsz, hpl, littleEndian_counterBytes,
    toBlock_block, if_neg hcheck]

/-- Every reachable state has an output size of 32 or 64 bytes, a length
counter below `2^512` and fewer than `BlockSize` pending bytes. -/
theorem Reachable.invariant (E : Engine) (h : Hash) (hr : Reachable E h) :
    (h.size = 32 ∨ h.size = 64) ∧ h.n < counterModulus ∧ h.buf.length < BlockSize := by
  induction hr with
  | new size hsize =>
    refine ⟨hsize, ?_, ?_⟩
    · show 0 < counterModulus
      decide
    · show ([] : List Byte).length < BlockSize
      decide
  | reset h _ ih =>
    refine ⟨ih.1, ?_, ?_⟩
    · show 0 < counterModulus
      decide
    · show ([] : List Byte).length < BlockSize
      decide
  | write h data _ ih =>
    obtain ⟨h1, h2⟩ := absorb_size_n E (h.buf.length + data.length) (h.append data)
    refine ⟨?_, h2 ih.2.1, ?_⟩
    · simp only [Hash.Write, h1]
      exact ih.1
    · apply absorb_buf_lt
      simp [Hash.append]
  | sum h b _ ih => exact ih
  | unmarshal h data _ r hok _ =>
    unfold Hash.UnmarshalBinary at hok
    dsimp only at hok
    split at hok
    · simp at hok
    · split at hok
      · simp at hok
      · rename_i hc
        simp only [Prod.mk.injEq, and_true] at hok
        subst hok
        simp only [BlockSize] at hc
        refine ⟨?_, ?_, ?_⟩
        · show (data.headD 0).val = 32 ∨ (data.headD 0).val = 64
          omega
        · show littleEndian (List.take BlockSize (List.drop BlockSize (List.drop 1 data)))
            < counterModulus
          have h1 := Gost3410.littleEndian_lt
            (List.take BlockSize (List.drop BlockSize (List.drop 1 data)))
          have h2 : (List.take BlockSize (List.drop BlockSize (List.drop 1 data))).length
              ≤ 64 := by
            simp only [List.length_take, BlockSize]
            omega
          have h3 : 256 ^ (List.take BlockSize (List.drop BlockSize (List.drop 1 data))).length
              ≤ counterModulus := Nat.pow_le_pow_right (by decide) h2
          exact lt_of_lt_of_le h1 h3
        · show (List.drop 1 (List.drop BlockSize (List.drop BlockSize
            (List.drop BlockSize (List.drop 1 data))))).length < BlockSize
          simp only [BlockSize]
          omega

theorem flatten_map_singleton (data : List Byte) :
    (data.map fun c => [c]).flatten = data := by
  induction data with
  | nil => rfl
  | cons x t ih => simp [ih]

/-- Claim C13.  Starting from a freshly reset hash, writing a byte sequence in
any consecutive chunks leaves the same state as one bulk write of the whole
sequence, so the digests of `Sum(nil)` and the encodings of `MarshalBinary`
are the same; in particular for single-byte writes; and writing `a` and then
`b` leaves the state of writing `a ++ b`. -/
theorem Write_chunking_independent (E : Engine) (h : Hash) (chunks : List (List Byte))
    (data a b : List Byte) :
    chunks.foldl (fun s c => s.Write E c) (h.Reset E) = (h.Reset E).Write E chunks.flatten
    ∧ ((chunks.foldl (fun s c => s.Write E c) (h.Reset E)).Sum E []).2
        = (((h.Reset E).Write E chunks.flatten).Sum E []).2
    ∧ (chunks.foldl (fun s c => s.Write E c) (h.Reset E)).MarshalBinary
        = ((h.Reset E).Write E chunks.flatten).MarshalBinary
    ∧ data.foldl (fun s c => s.Write E [c]) (h.Reset E) = (h.Reset E).Write E data
    ∧ ((data.foldl (fun s c => s.Write E [c]) (h.Reset E)).Sum E []).2
        = (((h.Reset E).Write E data).Sum E []).2
    ∧ (data.foldl (fun s c => s.Write E [c]) (h.Reset E)).MarshalBinary
        = ((h.Reset E).Write E data).MarshalBinary
    ∧ (h.Write E a).Write E b = h.Write E (a ++ b) := by
  have h0 : (h.Reset E).buf.length < BlockSize := by
    show ([] : List Byte).length < BlockSize
    decide
  have h1 := Write_chunks E chunks (h.Reset E) h0
  have h2 : data.foldl (fun s c => s.Write E [c]) (h.Reset E) = (h.Reset E).Write E data := by
    have h3 := Write_chunks E (data.map fun c => [c]) (h.Reset E) h0
    rw [List.foldl_map, flatten_map_singleton] at h3
    exact h3
  refine ⟨h1, ?_, ?_, h2, ?_, ?_, Write_Write E h a b⟩
  · rw [h1]
  · rw [h1]
  · rw [h2]
  · rw [h2]

/-- Claim C14.  For every reachable state, `Sum(nil)` leaves the state (every
field of it) as it was, two consecutive calls return the same bytes, and an
empty `Write` followed by `Sum(nil)` returns the bytes of `Sum(nil)` alone,
the empty `Write` leaving the state unchanged. -/
theorem Sum_keeps_state (E : Engine) (h : Hash) (hr : Reachable E h) :
    (h.Sum E []).1 = h
    ∧ ((h.Sum E []).1.Sum E []).2 = (h.Sum E []).2
    ∧ h.Write E [] = h
    ∧ ((h.Write E []).Sum E []).2 = (h.Sum E []).2
    ∧ (((h.Sum E []).1.Write E []).Sum E []).2 = (h.Sum E []).2 := by
  have hw := Write_nil E h (Reachable.invariant E h hr).2.2
  refine ⟨rfl, rfl, hw, ?_, ?_⟩
  · rw [hw]
  · show ((h.Write E []).Sum E []).2 = (h.Sum E []).2
    rw [hw]

/-- Witness of C14: the state after writing three bytes to a new 64-byte
hash of the small engine. -/
theorem Sum_keeps_state_witness :
    (((New toyEngine 64).Write toyEngine [1, 2, 3]).Sum toyEngine []).1
        = (New toyEngine 64).Write toyEngine [1, 2, 3]
    ∧ ((((New toyEngine 64).Write toyEngine [1, 2, 3]).Sum toyEngine []).1.Sum toyEngine []).2
        = (((New toyEngine 64).Write toyEngine [1, 2, 3]).Sum toyEngine []).2
    ∧ ((New toyEngine 64).Write toyEngine [1, 2, 3]).Write toyEngine []
        = (New toyEngine 64).Write toyEngine [1, 2, 3]
    ∧ ((((New toyEngine 64).Write toyEngine [1, 2, 3]).Write toyEngine []).Sum toyEngine []).2
        = (((New toyEngine 64).Write toyEngine [1, 2, 3]).Sum toyEngine []).2
    ∧ (((((New toyEngine 64).Write toyEngine [1, 2, 3]).Sum toyEngine []).1.Write
          toyEngine []).Sum toyEngine []).2
        = (((New toyEngine 64).Write toyEngine [1, 2, 3]).Sum toyEngine []).2 :=
  Sum_keeps_state toyEngine ((New toyEngine 64).Write toyEngine [1, 2, 3])
    (Reachable.write _ _ (Reachable.new 64 (Or.inr rfl)))

/-- Claim C15.  For every reachable state `h` (any bytes written, in any
chunks), `MarshalBinary` succeeds, `UnmarshalBinary` of the encoding into a
fresh `New(64)` succeeds and restores the state `h` itself: `Sum(nil)` of the
restored hash is that of `h`, and it stays so after writing any further bytes
to both. -/
theorem Marshal_Unmarshal_resumes (E : Engine) (h : Hash) (hr : Reachable E h) :
    ∃ raw : List Byte, h.MarshalBinary = (raw, none)
      ∧ (New E 64).UnmarshalBinary raw = (h, none)
      ∧ ((((New E 64).UnmarshalBinary raw).1).Sum E []).2 = (h.Sum E []).2
      ∧ ∀ more : List Byte,
          (((((New E 64).UnmarshalBinary raw).1).Write E more).Sum E []).2
            = ((h.Write E more).Sum E []).2 := by
  obtain ⟨h1, h2, h3⟩ := Reachable.invariant E h hr
  have hu := Unmarshal_Marshal (New E 64) h h1 h2 h3
  refine ⟨h.MarshalBinary.1, rfl, hu, ?_, ?_⟩
  · rw [hu]
  · intro more
    rw [hu]

/-- Witness of C15: a 32-byte hash of the small engine after 70 bytes, one
block compressed and six bytes pending. -/
theorem Marshal_Unmarshal_resumes_witness :
    ∃ raw : List Byte,
      ((New toyEngine 32).Write toyEngine (List.replicate 70 7)).MarshalBinary = (raw, none)
      ∧ (New toyEngine 64).UnmarshalBinary raw
          = ((New toyEngine 32).Write toyEngine (List.replicate 70 7), none)
      ∧ ((((New toyEngine 64).UnmarshalBinary raw).1).Sum toyEngine []).2
          = (((New toyEngine 32).Write toyEngine (List.replicate 70 7)).Sum toyEngine []).2
      ∧ ∀ more : List Byte,
          (((((New toyEngine 64).UnmarshalBinary raw).1).Write toyEngine more).Sum toyEngine []).2
            = ((((New toyEngine 32).Write toyEngine (List.replicate 70 7)).Write
                toyEngine more).Sum toyEngine []).2 :=
  Marshal_Unmarshal_resumes toyEngine ((New toyEngine 32).Write toyEngine (List.replicate 70 7))
    (Reachable.write _ _ (Reachable.new 32 (Or.inl rfl)))

end Gost34112012
